import Mathlib

/-!
Verification of the `ts-eventbus` dispatch engine: the pattern matcher
(`src/pattern-matcher/pattern-matcher.ts`), the listener store
(`listener-store.ts`), the handler executor (`handler-executor.ts`) and the
`emit` flow of `eventbus.ts`, shallowly embedded as pure Lean functions.

Modelling conventions:
- JavaScript `Map` objects are embedded as association lists in key-insertion
  order; `Map.set` replaces an existing entry in place or appends a new one,
  `Map.delete` drops the entry, and iteration follows list order, mirroring
  the ECMAScript specification for `Map`.
- `Symbol()` listener identities are embedded as natural numbers drawn from a
  monotone counter carried in the store state (`nextId`): ids are unique and
  increase in registration order, which is precisely what the source relies
  on `Symbol` for.
- `Date.now()` is a non-decreasing external input, so `add` takes the current
  timestamp as an explicit argument; nothing forces it to strictly increase
  between consecutive registrations (millisecond resolution).
- Handlers are side-effecting functions of the payload; the executor only
  observes whether the call returned normally, returned a promise that
  resolved, threw synchronously, or returned a promise that rejected.  We
  therefore model a handler invocation by a `HandlerBehavior` oracle indexed
  by listener id, and handler durations by an explicit duration oracle.
  `executeHandler` and `execute` are total Lean functions into plain (non
  `Except`) results: the `try`/`catch` and the rejection callback in the
  source convert every failure into an ordinary return value, which is what
  the totality of the embedding expresses ("execute never rejects").
- `Array.prototype.sort` is stable (ES2019) and a stable sorted permutation
  is unique, so `sortByPriority` is embedded as a stable insertion sort.
- The regex compiled by the pattern matcher escapes every regex
  metacharacter except `*` and turns each `*` into `.*`; since the regex is
  built without the `s` or `m` flags, `.` matches every character except the
  ECMAScript line terminators LF, CR, U+2028 and U+2029, and `^`/`$` anchor
  at the ends of the whole string.  `globMatch` embeds exactly that
  semantics (for `*` it tries every split allowed by `.*`, i.e. every
  suffix reached by consuming non-line-terminator characters); the pattern
  cache is keyed by the raw pattern string and only avoids recompilation,
  so it is semantically transparent and not modelled.
-/

namespace TsEventBus

/-! ## Pattern matcher (`pattern-matcher.ts`) -/

/-- `hasWildcard(pattern)`: `pattern.includes('*')`. -/
def hasWildcard (pattern : String) : Bool :=
  pattern.data.contains '*'

/-- Characters matched by an ECMAScript regex `.` without the `s` flag:
everything except the line terminators LF, CR, U+2028, U+2029. -/
def dotChar (c : Char) : Bool :=
  c != '\n' && c != '\r' && c.val != 0x2028 && c.val != 0x2029

/-- All suffixes of `es` reachable by consuming zero or more characters each
matched by the regex `.` — the candidate remainders after a `.*`. -/
def dotSuffixes : List Char → List (List Char)
  | [] => [[]]
  | e :: es => (e :: es) :: (if dotChar e then dotSuffixes es else [])

/-- Test of the anchored regex the matcher compiles: each `*` of the pattern
became `.*` (zero or more `dotChar`s) and every other character was escaped
so that it matches only itself. -/
def globMatch : List Char → List Char → Bool
  | [], es => es.isEmpty
  | p :: ps, es =>
    if p == '*' then (dotSuffixes es).any fun t => globMatch ps t
    else
      match es with
      | [] => false
      | e :: es' => p == e && globMatch ps es'

/-- `matches(pattern, event)` from `pattern-matcher.ts`: the `pattern === '*'`
fast path, the `pattern === event` fast path, then the compiled-regex test.
(`matches` is a reserved word in Lean, hence the name `matchesEvent`.) -/
def matchesEvent (pattern event : String) : Bool :=
  pattern == "*" || pattern == event || globMatch pattern.data event.data

/-- Declarative reading of the compiled regex: a pattern matches an event
name iff the event decomposes into literal characters at the literal
positions of the pattern and, for each `*`, a (possibly empty) run of
non-line-terminator characters. -/
inductive GlobMatches : List Char → List Char → Prop where
  | nil : GlobMatches [] []
  | lit {c : Char} {ps es : List Char} :
      GlobMatches ps es → GlobMatches (c :: ps) (c :: es)
  | starSkip {ps es : List Char} :
      GlobMatches ps es → GlobMatches ('*' :: ps) es
  | starConsume {c : Char} {ps es : List Char} :
      dotChar c = true → GlobMatches ('*' :: ps) es →
      GlobMatches ('*' :: ps) (c :: es)

/-- Spec-side matcher, modelled from the claim wording "the wildcard token
matches zero or more arbitrary characters and all other characters match
only themselves literally" — identical in structure to `globMatch` except
that the wildcard run is NOT restricted to non-line-terminator characters. -/
def specGlobMatch : List Char → List Char → Bool
  | [], es => es.isEmpty
  | p :: ps, es =>
    if p == '*' then (es.tails).any fun t => specGlobMatch ps t
    else
      match es with
      | [] => false
      | e :: es' => p == e && specGlobMatch ps es'

theorem mem_dotSuffixes_self : ∀ (es : List Char), es ∈ dotSuffixes es
  | [] => by simp [dotSuffixes]
  | _ :: _ => by simp [dotSuffixes]

theorem globStar_iff {ps : List Char} (es : List Char) :
    GlobMatches ('*' :: ps) es ↔ ∃ t ∈ dotSuffixes es, GlobMatches ps t := by
  induction es with
  | nil =>
    constructor
    · intro h
      cases h with
      | starSkip h => exact ⟨[], by simp [dotSuffixes], h⟩
    · rintro ⟨t, ht, h⟩
      simp [dotSuffixes] at ht
      exact ht ▸ GlobMatches.starSkip h
  | cons e es ih =>
    constructor
    · intro h
      cases h with
      | lit h =>
        refine ⟨es, ?_, h⟩
        simp only [dotSuffixes]
        have : dotChar '*' = true := by decide
        simp [this, mem_dotSuffixes_self es]
      | starSkip h => exact ⟨e :: es, by simp [dotSuffixes], h⟩
      | starConsume hd h =>
        obtain ⟨t, ht, h'⟩ := ih.mp h
        exact ⟨t, by simp [dotSuffixes, hd, ht], h'⟩
    · rintro ⟨t, ht, h⟩
      cases hd : dotChar e with
      | true =>
        simp only [dotSuffixes, hd, if_true, List.mem_cons] at ht
        rcases ht with rfl | ht
        · exact GlobMatches.starSkip h
        · exact GlobMatches.starConsume hd (ih.mpr ⟨t, ht, h⟩)
      | false =>
        simp only [dotSuffixes, hd, Bool.false_eq_true, if_false, List.mem_cons,
          List.not_mem_nil, or_false] at ht
        exact ht ▸ GlobMatches.starSkip h

theorem globMatch_iff : ∀ (ps es : List Char),
    globMatch ps es = true ↔ GlobMatches ps es := by
  intro ps
  induction ps with
  | nil =>
    intro es
    cases es with
    | nil =>
      simp only [globMatch, List.isEmpty_nil]
      exact ⟨fun _ => .nil, fun _ => trivial⟩
    | cons e es =>
      simp only [globMatch, List.isEmpty_cons, Bool.false_eq_true, false_iff]
      intro h; cases h
  | cons p ps ih =>
    intro es
    by_cases hp : p = '*'
    · subst hp
      simp only [globMatch, beq_self_eq_true, if_true, List.any_eq_true]
      rw [globStar_iff es]
      constructor
      · rintro ⟨t, ht, h⟩; exact ⟨t, ht, (ih t).mp h⟩
      · rintro ⟨t, ht, h⟩; exact ⟨t, ht, (ih t).mpr h⟩
    · have hp' : (p == '*') = false := by simpa using hp
      cases es with
      | nil =>
        simp only [globMatch, hp', Bool.false_eq_true, if_false]
        constructor
        · intro h; cases h
        · intro h; cases h; exact absurd rfl hp
      | cons e es =>
        simp only [globMatch, hp', Bool.false_eq_true, if_false,
          Bool.and_eq_true, beq_iff_eq]
        constructor
        · rintro ⟨rfl, h⟩; exact GlobMatches.lit ((ih es).mp h)
        · intro h
          cases h with
          | lit h => exact ⟨rfl, (ih es).mpr h⟩
          | starSkip h => exact absurd rfl hp
          | starConsume hd h => exact absurd rfl hp

/-! ## Listener store data model (`listener-store.ts`) -/

/-- The internal `Listener` record.  The `handler` closure itself is not data
we can compare; its observable behavior is supplied to the executor as an
oracle keyed by `id` (see `HandlerBehavior`).  `id` embeds the `Symbol`,
`priority`/`once`/`pattern`/`addedAt` are as in the source, and the two
monitoring counters use `ℚ` for durations so that the average in `getAll`
is an exact division. -/
structure Listener where
  id : Nat
  priority : Int
  once : Bool
  pattern : String
  addedAt : Nat
  executionCount : Nat
  totalDuration : ℚ
deriving DecidableEq

/-- `SubscribeOptions`: optional `priority` and `once`. -/
structure SubscribeOptions where
  priority : Option Int := none
  once : Option Bool := none

/-- The comparator of `sortByPriority` as a total boolean order: `a` may come
before `b` iff the comparator value `compare(a, b)` is `≤ 0`, i.e. higher
priority first and, within one priority, smaller `addedAt` first. -/
def listenerLE (a b : Listener) : Bool :=
  if a.priority = b.priority then decide (a.addedAt ≤ b.addedAt)
  else decide (b.priority < a.priority)

/-- The comparator as a relation, for use with `List.insertionSort`. -/
def ListenerLE (a b : Listener) : Prop := listenerLE a b = true

instance : DecidableRel ListenerLE := fun _ _ => inferInstanceAs (Decidable (_ = true))

/-- `sortByPriority`: `Array.prototype.sort` with the priority/`addedAt`
comparator.  JavaScript sort is stable and a stable sorted permutation is
unique, so the stable insertion sort computes exactly the same list. -/
def sortByPriority (listeners : List Listener) : List Listener :=
  List.insertionSort ListenerLE listeners

/-- Association-list embedding of `Map.get`. -/
def getA {α : Type} : List (String × α) → String → Option α
  | [], _ => none
  | (k, v) :: rest, key => if k = key then some v else getA rest key

/-- Association-list embedding of `Map.set`: replace in place, else append. -/
def setA {α : Type} : List (String × α) → String → α → List (String × α)
  | [], key, val => [(key, val)]
  | (k, v) :: rest, key, val =>
    if k = key then (k, val) :: rest else (k, v) :: setA rest key val

/-- Association-list embedding of `Map.delete` (keys are unique in a `Map`). -/
def delA {α : Type} (m : List (String × α)) (key : String) : List (String × α) :=
  m.filter fun e => e.1 != key

/-- The store state: the two buckets, the marked-for-removal set (a `Set`
in insertion order) and the id counter embedding `Symbol` freshness. -/
structure Store where
  exactMatches : List (String × List Listener)
  wildcardPatterns : List (String × List Listener)
  markedForRemoval : List Nat
  nextId : Nat
deriving DecidableEq

/-- The empty store built by `createListenerStore`. -/
def store0 : Store := ⟨[], [], [], 0⟩

/-- `getMapForPattern`: which bucket a pattern lives in. -/
def getMapForPattern (s : Store) (pattern : String) : List (String × List Listener) :=
  if hasWildcard pattern then s.wildcardPatterns else s.exactMatches

/-- Writing back the bucket chosen by `getMapForPattern`. -/
def setBucket (s : Store) (pattern : String) (m : List (String × List Listener)) : Store :=
  if hasWildcard pattern then { s with wildcardPatterns := m }
  else { s with exactMatches := m }

/-- `add(pattern, handler, options)`: create the listener (fresh id, default
priority 0, default once false, `addedAt` = the current time), append it to
its pattern's bucket entry and re-sort that entry. -/
def add (s : Store) (pattern : String) (options : SubscribeOptions) (now : Nat) :
    Nat × Store :=
  let listenerId := s.nextId
  let listener : Listener :=
    { id := listenerId
      priority := options.priority.getD 0
      once := options.once.getD false
      pattern := pattern
      addedAt := now
      executionCount := 0
      totalDuration := 0 }
  let m := getMapForPattern s pattern
  let existing := (getA m pattern).getD []
  let updated := sortByPriority (existing ++ [listener])
  (listenerId, { setBucket s pattern (setA m pattern updated) with nextId := s.nextId + 1 })

/-- `remove(pattern, listenerId)`. -/
def remove (s : Store) (pattern : String) (listenerId : Nat) : Bool × Store :=
  let m := getMapForPattern s pattern
  let existing := (getA m pattern).getD []
  let updated := existing.filter fun l => l.id != listenerId
  let m' := if updated.isEmpty then delA m pattern else setA m pattern updated
  (updated.length != existing.length, setBucket s pattern m')

/-- The `removeListenerById` helper: scan one bucket for the id; on the first
entry containing it, drop the id (deleting the entry if it empties) and
report the pattern; otherwise leave the bucket untouched. -/
def removeListenerById : List (String × List Listener) → Nat →
    Option String × List (String × List Listener)
  | [], _ => (none, [])
  | (pattern, listeners) :: rest, listenerId =>
    if listeners.any fun l => l.id == listenerId then
      let updated := listeners.filter fun l => l.id != listenerId
      if updated.isEmpty then (some pattern, rest)
      else (some pattern, (pattern, updated) :: rest)
    else
      let r := removeListenerById rest listenerId
      (r.1, (pattern, listeners) :: r.2)

/-- `removeById(listenerId)`: exact bucket first, then wildcards (`??`). -/
def removeById (s : Store) (listenerId : Nat) : Option String × Store :=
  match removeListenerById s.exactMatches listenerId with
  | (some pattern, m') => (some pattern, { s with exactMatches := m' })
  | (none, _) =>
    match removeListenerById s.wildcardPatterns listenerId with
    | (some pattern, m') => (some pattern, { s with wildcardPatterns := m' })
    | (none, _) => (none, s)

/-- The `collectAllListeners` helper: every `(pattern, id)` pair of a bucket
in iteration order. -/
def collectAllListeners (m : List (String × List Listener)) : List (String × Nat) :=
  m.foldr (fun e acc => (e.2.map fun l => (e.1, l.id)) ++ acc) []

/-- `removeAll(event?)`: with no argument collect-and-clear everything; with
an event name report the exact bucket's entry for it, then delete that key
from BOTH buckets. -/
def removeAll (s : Store) (event : Option String) : List (String × Nat) × Store :=
  match event with
  | none =>
    let removed := collectAllListeners s.exactMatches ++
      collectAllListeners s.wildcardPatterns
    (removed, { s with exactMatches := [], wildcardPatterns := [] })
  | some ev =>
    let listeners := (getA s.exactMatches ev).getD []
    let removed := listeners.map fun l => (ev, l.id)
    (removed, { s with exactMatches := delA s.exactMatches ev,
                       wildcardPatterns := delA s.wildcardPatterns ev })

/-- The unsorted merge `getMatching` builds before sorting: the exact
bucket's entry for the event, then every matching wildcard entry in bucket
iteration order. -/
def getMatchingRaw (s : Store) (event : String) : List Listener :=
  (getA s.exactMatches event).getD [] ++
    s.wildcardPatterns.foldr
      (fun e acc => if matchesEvent e.1 event then e.2 ++ acc else acc) []

/-- `getMatching(event)`: merge, then `sortByPriority`. -/
def getMatching (s : Store) (event : String) : List Listener :=
  sortByPriority (getMatchingRaw s event)

/-- The public listener summary returned by `getAll`. -/
structure ListenerInfo where
  id : Nat
  priority : Int
  once : Bool
  pattern : String
  addedAt : Nat
  executionCount : Nat
  avgDuration : ℚ
deriving DecidableEq

/-- The `mapListeners` body inside `getAll`: the public projection of one
listener, with the guarded average
`executionCount > 0 ? totalDuration / executionCount : 0`. -/
def toListenerInfo (l : Listener) : ListenerInfo :=
  { id := l.id
    priority := l.priority
    once := l.once
    pattern := l.pattern
    addedAt := l.addedAt
    executionCount := l.executionCount
    avgDuration :=
      if l.executionCount > 0 then l.totalDuration / (l.executionCount : ℚ) else 0 }

/-- The `addMatchingToResult` helper of `getAll`: copy into `result` every
bucket entry passing the (absent or matching) event filter. -/
def addMatchingToResult (m : List (String × List Listener))
    (result : List (String × List ListenerInfo)) (event : Option String) :
    List (String × List ListenerInfo) :=
  m.foldl
    (fun r e =>
      if (match event with | none => true | some ev => matchesEvent e.1 ev) then
        setA r e.1 (e.2.map toListenerInfo)
      else r)
    result

/-- `getAll(event?)`: exact bucket entries first, then wildcard entries. -/
def getAll (s : Store) (event : Option String) : List (String × List ListenerInfo) :=
  addMatchingToResult s.wildcardPatterns
    (addMatchingToResult s.exactMatches [] event) event

/-- In-place update of the first listener with the given id: bump
`executionCount` and accumulate `totalDuration`. -/
def updateFirstById (listeners : List Listener) (listenerId : Nat) (duration : ℚ) :
    List Listener :=
  match listeners with
  | [] => []
  | l :: rest =>
    if l.id == listenerId then
      { l with executionCount := l.executionCount + 1,
               totalDuration := l.totalDuration + duration } :: rest
    else l :: updateFirstById rest listenerId duration

/-- The `findAndUpdate` closure of `updateStats`: first entry containing the
id gets its listener updated; reports whether it found one. -/
def findAndUpdate (m : List (String × List Listener)) (listenerId : Nat)
    (duration : ℚ) : Bool × List (String × List Listener) :=
  match m with
  | [] => (false, [])
  | (pattern, listeners) :: rest =>
    if listeners.any fun l => l.id == listenerId then
      (true, (pattern, updateFirstById listeners listenerId duration) :: rest)
    else
      let r := findAndUpdate rest listenerId duration
      (r.1, (pattern, listeners) :: r.2)

/-- `updateStats(listenerId, duration)`: exact bucket first, else wildcards. -/
def updateStats (s : Store) (listenerId : Nat) (duration : ℚ) : Store :=
  let r := findAndUpdate s.exactMatches listenerId duration
  if r.1 then { s with exactMatches := r.2 }
  else { s with wildcardPatterns := (findAndUpdate s.wildcardPatterns listenerId duration).2 }

/-- `markForRemoval(listenerId)`: `Set.add`. -/
def markForRemoval (s : Store) (listenerId : Nat) : Store :=
  if s.markedForRemoval.contains listenerId then s
  else { s with markedForRemoval := s.markedForRemoval ++ [listenerId] }

/-- The `removeMarkedFromMap` helper: filter each entry, deleting entries
that become empty and rewriting only entries that changed. -/
def removeMarkedFromMap (marked : List Nat) (m : List (String × List Listener)) :
    List (String × List Listener) :=
  m.foldr
    (fun e acc =>
      let updated := e.2.filter fun l => !(marked.contains l.id)
      if updated.isEmpty then acc
      else if updated.length != e.2.length then (e.1, updated) :: acc
      else (e.1, e.2) :: acc)
    []

/-- `removeMarked()`. -/
def removeMarked (s : Store) : Store :=
  if s.markedForRemoval.isEmpty then s
  else
    { s with exactMatches := removeMarkedFromMap s.markedForRemoval s.exactMatches,
             wildcardPatterns := removeMarkedFromMap s.markedForRemoval s.wildcardPatterns,
             markedForRemoval := [] }

/-! ## Handler executor (`handler-executor.ts`) -/

/-- The four observable outcomes of calling a handler: a synchronous return,
a promise that resolves, a synchronous throw, a promise that rejects. -/
inductive HandlerBehavior where
  | syncOk
  | asyncOk
  | syncThrow
  | asyncReject
deriving DecidableEq

/-- Whether an outcome counts as a successful completion. -/
def behaviorOk : HandlerBehavior → Bool
  | .syncOk => true
  | .asyncOk => true
  | .syncThrow => false
  | .asyncReject => false

/-- `executeHandler`'s verdict: on either successful completion the listener
is flagged for removal iff it is `once`; a synchronous throw is caught by
the `try`/`catch` and an awaited rejection by the rejection callback, both
yielding `shouldRemove: false`.  The function is total: no outcome makes it
propagate a failure. -/
def executeHandler (listener : Listener) (b : HandlerBehavior) : Bool :=
  match b with
  | .syncOk => listener.once
  | .asyncOk => listener.once
  | .syncThrow => false
  | .asyncReject => false

/-- Result of `execute`, instrumented with the invocation order: `invoked`
records each listener whose handler was called (every loop iteration calls
`executeHandler`), `listenersToRemove` the ids flagged by `shouldRemove`. -/
structure HandlerExecutionResult where
  invoked : List Nat
  listenersToRemove : List Nat
deriving DecidableEq

/-- `execute(event, payload, listeners)`: strictly sequential loop over the
supplied list; each iteration invokes the handler (recorded in `invoked`)
and appends the id to the removal list iff `executeHandler` said so.  Total
into a plain result: no handler outcome can make it reject. -/
def execute (listeners : List Listener) (behavior : Nat → HandlerBehavior) :
    HandlerExecutionResult :=
  match listeners with
  | [] => ⟨[], []⟩
  | l :: rest =>
    let shouldRemove := executeHandler l (behavior l.id)
    let tail := execute rest behavior
    ⟨l.id :: tail.invoked,
      (if shouldRemove then [l.id] else []) ++ tail.listenersToRemove⟩

/-! ## The `emit` flow (`eventbus.ts`) -/

/-- The store effect of one `emit(event, payload)`: take the matching
snapshot, run the executor (successful handlers bump the shared listeners'
counters, modelled through `updateStats` with an explicit duration oracle),
then remove every id the executor flagged via `removeById`. -/
def emitStore (s : Store) (event : String) (behavior : Nat → HandlerBehavior)
    (dur : Nat → ℚ) : Store :=
  let matchingListeners := getMatching s event
  let result := execute matchingListeners behavior
  let afterStats := matchingListeners.foldl
    (fun st l => if behaviorOk (behavior l.id) then updateStats st l.id (dur l.id) else st) s
  result.listenersToRemove.foldl (fun st i => (removeById st i).2) afterStats

/-- A sequence of further emissions (event name, behavior oracle, duration
oracle), applied in order. -/
def emitMany (s : Store) : List (String × (Nat → HandlerBehavior) × (Nat → ℚ)) → Store
  | [] => s
  | (e, b, d) :: rest => emitMany (emitStore s e b d) rest

/-! ## Store invariants -/

/-- All listeners of one bucket, in iteration order. -/
def mapListenersAll (m : List (String × List Listener)) : List Listener :=
  m.foldr (fun e acc => e.2 ++ acc) []

/-- All listeners of the store (exact bucket, then wildcard bucket). -/
def storeListeners (s : Store) : List Listener :=
  mapListenersAll s.exactMatches ++ mapListenersAll s.wildcardPatterns

/-- All listener ids of the store. -/
def storeIds (s : Store) : List Nat :=
  (storeListeners s).map fun l => l.id

/-- Per-entry well-formedness of one bucket (`w` says which bucket it is):
no entry holds an empty list, every listener is stored under its own
pattern, and a key is in this bucket iff the wildcard test says so. -/
def bucketEntriesWF (w : Bool) (m : List (String × List Listener)) : Prop :=
  ∀ e ∈ m, e.2 ≠ [] ∧ (∀ l ∈ e.2, l.pattern = e.1) ∧ hasWildcard e.1 = w

/-- Bucket well-formedness: the per-entry conditions plus uniqueness of the
keys (structurally guaranteed by a JavaScript `Map`). -/
def bucketWF (w : Bool) (m : List (String × List Listener)) : Prop :=
  bucketEntriesWF w m ∧ (m.map Prod.fst).Nodup

/-- Store invariant: both buckets well formed, ids pairwise distinct, and
every id below the freshness counter. -/
def WF (s : Store) : Prop :=
  bucketWF false s.exactMatches ∧ bucketWF true s.wildcardPatterns ∧
    (storeIds s).Nodup ∧ ∀ i ∈ storeIds s, i < s.nextId

instance (w : Bool) (m : List (String × List Listener)) : Decidable (bucketEntriesWF w m) :=
  List.decidableBAll _ m

instance (w : Bool) (m : List (String × List Listener)) : Decidable (bucketWF w m) :=
  inferInstanceAs (Decidable (_ ∧ _))

instance (s : Store) : Decidable (WF s) :=
  inferInstanceAs (Decidable (_ ∧ _ ∧ _ ∧ _))

/-- The store states reachable through the public `ListenerStore` API (and
the façade's `emit` flow) from the freshly created store. -/
inductive Reachable : Store → Prop where
  | init : Reachable store0
  | add {s : Store} (pattern : String) (options : SubscribeOptions) (now : Nat) :
      Reachable s → Reachable (add s pattern options now).2
  | remove {s : Store} (pattern : String) (listenerId : Nat) :
      Reachable s → Reachable (remove s pattern listenerId).2
  | removeById {s : Store} (listenerId : Nat) :
      Reachable s → Reachable (TsEventBus.removeById s listenerId).2
  | removeAll {s : Store} (event : Option String) :
      Reachable s → Reachable (TsEventBus.removeAll s event).2
  | updateStats {s : Store} (listenerId : Nat) (duration : ℚ) :
      Reachable s → Reachable (TsEventBus.updateStats s listenerId duration)
  | markForRemoval {s : Store} (listenerId : Nat) :
      Reachable s → Reachable (TsEventBus.markForRemoval s listenerId)
  | removeMarked {s : Store} :
      Reachable s → Reachable (TsEventBus.removeMarked s)
  | emit {s : Store} (event : String) (behavior : Nat → HandlerBehavior) (dur : Nat → ℚ) :
      Reachable s → Reachable (emitStore s event behavior dur)

/-! ## Order properties of the comparator and the sort -/

theorem listenerLE_eq_true_iff (a b : Listener) :
    listenerLE a b = true ↔
      b.priority < a.priority ∨ (a.priority = b.priority ∧ a.addedAt ≤ b.addedAt) := by
  unfold listenerLE
  split
  · rename_i h
    simp only [decide_eq_true_eq]
    omega
  · rename_i h
    simp only [decide_eq_true_eq]
    omega

theorem listenerLE_total (a b : Listener) :
    listenerLE a b = true ∨ listenerLE b a = true := by
  simp only [listenerLE_eq_true_iff]
  omega

theorem listenerLE_trans {a b c : Listener} (h1 : listenerLE a b = true)
    (h2 : listenerLE b c = true) : listenerLE a c = true := by
  simp only [listenerLE_eq_true_iff] at h1 h2 ⊢
  omega

instance : IsTotal Listener ListenerLE := ⟨listenerLE_total⟩

instance : IsTrans Listener ListenerLE := ⟨fun _ _ _ => listenerLE_trans⟩

theorem sortByPriority_perm (l : List Listener) : (sortByPriority l).Perm l :=
  List.perm_insertionSort ListenerLE l

theorem sortByPriority_sorted (l : List Listener) :
    (sortByPriority l).Pairwise ListenerLE :=
  List.sorted_insertionSort ListenerLE l

theorem mem_sortByPriority {l : List Listener} {x : Listener} :
    x ∈ sortByPriority l ↔ x ∈ l :=
  (sortByPriority_perm l).mem_iff

/-! ## Association-list lemmas -/

theorem getA_eq_none_iff {α : Type} {m : List (String × α)} {k : String} :
    getA m k = none ↔ ∀ e ∈ m, e.1 ≠ k := by
  induction m with
  | nil => simp [getA]
  | cons e rest ih =>
    obtain ⟨k', v'⟩ := e
    by_cases h : k' = k
    · subst h
      simp [getA]
    · simp [getA, h, ih]

theorem getA_mem {α : Type} {m : List (String × α)} {k : String} {v : α}
    (h : getA m k = some v) : (k, v) ∈ m := by
  induction m with
  | nil => simp [getA] at h
  | cons e rest ih =>
    obtain ⟨k', v'⟩ := e
    by_cases hk : k' = k
    · subst hk
      simp only [getA, if_true, Option.some.injEq] at h
      subst h
      exact List.mem_cons_self _ _
    · simp only [getA, if_neg hk] at h
      exact List.mem_cons_of_mem _ (ih h)

theorem getA_some_decomp {α : Type} {m : List (String × α)} {k : String} {v : α}
    (h : getA m k = some v) :
    ∃ m₁ m₂, m = m₁ ++ (k, v) :: m₂ ∧ (∀ e ∈ m₁, e.1 ≠ k) ∧
      ∀ w, setA m k w = m₁ ++ (k, w) :: m₂ := by
  induction m with
  | nil => simp [getA] at h
  | cons e rest ih =>
    obtain ⟨k', v'⟩ := e
    by_cases hk : k' = k
    · subst hk
      simp only [getA, if_true, Option.some.injEq] at h
      subst h
      exact ⟨[], rest, rfl, by simp, fun w => by simp [setA]⟩
    · simp only [getA, if_neg hk] at h
      obtain ⟨m₁, m₂, hm, hnot, hset⟩ := ih h
      refine ⟨(k', v') :: m₁, m₂, by simp [hm], ?_, fun w => ?_⟩
      · intro e he
        rcases List.mem_cons.mp he with rfl | he
        · exact hk
        · exact hnot e he
      · simp [setA, hk, hset w]

theorem delA_eq_of_not_mem {α : Type} {m : List (String × α)} {k : String}
    (h : ∀ e ∈ m, e.1 ≠ k) : delA m k = m := by
  unfold delA
  rw [List.filter_eq_self]
  intro e he
  simpa using h e he

/-! ## Bucket content lemmas -/

theorem mapListenersAll_nil : mapListenersAll [] = [] := rfl

theorem mapListenersAll_cons (e : String × List Listener)
    (m : List (String × List Listener)) :
    mapListenersAll (e :: m) = e.2 ++ mapListenersAll m := rfl

theorem mapListenersAll_append (m₁ m₂ : List (String × List Listener)) :
    mapListenersAll (m₁ ++ m₂) = mapListenersAll m₁ ++ mapListenersAll m₂ := by
  induction m₁ with
  | nil => rfl
  | cons e rest ih => simp [mapListenersAll_cons, ih]

theorem mem_mapListenersAll {l : Listener} {m : List (String × List Listener)} :
    l ∈ mapListenersAll m ↔ ∃ e ∈ m, l ∈ e.2 := by
  induction m with
  | nil => simp [mapListenersAll_nil]
  | cons e rest ih =>
    simp [mapListenersAll_cons, ih, List.mem_append]

theorem mapListenersAll_filter_sublist (p : String × List Listener → Bool)
    (m : List (String × List Listener)) :
    (mapListenersAll (m.filter p)).Sublist (mapListenersAll m) := by
  induction m with
  | nil => simp
  | cons e rest ih =>
    by_cases hp : p e = true
    · simpa [List.filter_cons, hp, mapListenersAll_cons] using ih.append_left e.2
    · have hp' : p e = false := by simpa using hp
      simp only [List.filter_cons, hp', Bool.false_eq_true, if_false, mapListenersAll_cons]
      exact ih.trans (List.sublist_append_right e.2 _)

/-! ## Preservation lemmas: `add` -/

theorem setA_eq_append_of_not_mem {α : Type} {m : List (String × α)} {k : String}
    {v : α} (h : ∀ e ∈ m, e.1 ≠ k) : setA m k v = m ++ [(k, v)] := by
  induction m with
  | nil => rfl
  | cons e rest ih =>
    obtain ⟨k', v'⟩ := e
    have hk : k' ≠ k := h (k', v') (List.mem_cons_self _ _)
    simp only [setA, if_neg hk, List.cons_append, List.cons.injEq, true_and]
    exact ih fun e he => h e (List.mem_cons_of_mem _ he)

theorem sortByPriority_eq_nil_iff {l : List Listener} :
    sortByPriority l = [] ↔ l = [] := by
  constructor
  · intro h
    have hp := sortByPriority_perm l
    rw [h] at hp
    exact hp.symm.eq_nil
  · intro h
    subst h
    rfl

/-- Ids of one bucket, in iteration order. -/
def mapIds (m : List (String × List Listener)) : List Nat :=
  (mapListenersAll m).map fun l => l.id

theorem storeIds_eq (s : Store) :
    storeIds s = mapIds s.exactMatches ++ mapIds s.wildcardPatterns := by
  simp [storeIds, storeListeners, mapIds, List.map_append]

/-- Effect of `add`'s bucket write on the bucket's listener multiset. -/
theorem addBucket_perm (m : List (String × List Listener)) (pat : String)
    (l : Listener) :
    (mapListenersAll (setA m pat (sortByPriority ((getA m pat).getD [] ++ [l])))).Perm
      (l :: mapListenersAll m) := by
  cases hget : getA m pat with
  | none =>
    have hnm : ∀ e ∈ m, e.1 ≠ pat := getA_eq_none_iff.mp hget
    rw [setA_eq_append_of_not_mem hnm, mapListenersAll_append]
    simp only [Option.getD_none, List.nil_append, mapListenersAll_cons,
      mapListenersAll_nil, List.append_nil]
    exact (List.Perm.append_left _ (sortByPriority_perm [l])).trans
      (List.perm_append_singleton l _)
  | some ls =>
    obtain ⟨m₁, m₂, hm, _, hset⟩ := getA_some_decomp hget
    simp only [Option.getD_some]
    rw [hset, hm, mapListenersAll_append, mapListenersAll_append,
      mapListenersAll_cons, mapListenersAll_cons]
    have h1 : (mapListenersAll m₁ ++ (sortByPriority (ls ++ [l]) ++ mapListenersAll m₂)).Perm
        (mapListenersAll m₁ ++ ((ls ++ [l]) ++ mapListenersAll m₂)) :=
      List.Perm.append_left _ (List.Perm.append_right _ (sortByPriority_perm _))
    refine h1.trans ?_
    have h2 : mapListenersAll m₁ ++ ((ls ++ [l]) ++ mapListenersAll m₂) =
        (mapListenersAll m₁ ++ ls) ++ (l :: mapListenersAll m₂) := by
      simp [List.append_assoc]
    rw [h2]
    refine List.perm_middle.trans ?_
    simp [List.append_assoc]

/-- `add`'s bucket write preserves the per-entry conditions, provided the
new listener is stored under its own pattern in the right bucket. -/
theorem addBucket_entriesWF {w : Bool} {m : List (String × List Listener)}
    {pat : String} {l : Listener} (hw : bucketEntriesWF w m)
    (hpw : hasWildcard pat = w) (hl : l.pattern = pat) :
    bucketEntriesWF w (setA m pat (sortByPriority ((getA m pat).getD [] ++ [l]))) := by
  intro e he
  cases hget : getA m pat with
  | none =>
    rw [hget] at he
    have hnm : ∀ e ∈ m, e.1 ≠ pat := getA_eq_none_iff.mp hget
    rw [setA_eq_append_of_not_mem hnm] at he
    rcases List.mem_append.mp he with he | he
    · exact hw e he
    · simp only [List.mem_singleton] at he
      subst he
      refine ⟨?_, ?_, by simpa using hpw⟩
      · simp [sortByPriority_eq_nil_iff]
      · intro x hx
        rw [mem_sortByPriority] at hx
        simp only [Option.getD_none, List.nil_append, List.mem_singleton] at hx
        subst hx
        exact hl
  | some ls =>
    obtain ⟨m₁, m₂, hm, _, hset⟩ := getA_some_decomp hget
    rw [hget] at he
    simp only [Option.getD_some] at he
    rw [hset] at he
    have hmem_old : (pat, ls) ∈ m := getA_mem hget
    rcases List.mem_append.mp he with he | he
    · exact hw e (hm ▸ List.mem_append_left _ he)
    · rcases List.mem_cons.mp he with rfl | he
      · refine ⟨?_, ?_, by simpa using hpw⟩
        · simp [sortByPriority_eq_nil_iff]
        · intro x hx
          rw [mem_sortByPriority] at hx
          rcases List.mem_append.mp hx with hx | hx
          · exact (hw _ hmem_old).2.1 x hx
          · simp only [List.mem_singleton] at hx
            subst hx
            exact hl
      · exact hw e (hm ▸ List.mem_append_right _ (List.mem_cons_of_mem _ he))

/-- `setA` with an existing key keeps the key list; with a fresh key it
appends it.  Either way key uniqueness is preserved. -/
theorem setA_keys_nodup {m : List (String × List Listener)} {k : String}
    {v : List Listener} (h : (m.map Prod.fst).Nodup) :
    ((setA m k v).map Prod.fst).Nodup := by
  cases hget : getA m k with
  | none =>
    have hnm : ∀ e ∈ m, e.1 ≠ k := getA_eq_none_iff.mp hget
    rw [setA_eq_append_of_not_mem hnm, List.map_append]
    simp only [List.map_cons, List.map_nil]
    rw [List.nodup_append]
    refine ⟨h, List.nodup_singleton _, ?_⟩
    intro a ha hb
    simp only [List.mem_singleton] at hb
    subst hb
    obtain ⟨e, he, hk⟩ := List.mem_map.mp ha
    exact hnm e he hk
  | some ls =>
    obtain ⟨m₁, m₂, hm, _, hset⟩ := getA_some_decomp hget
    rw [hset v]
    rw [hm] at h
    simpa using h

/-- `add`'s bucket write preserves full bucket well-formedness. -/
theorem addBucket_bucketWF {w : Bool} {m : List (String × List Listener)}
    {pat : String} {l : Listener} (hw : bucketWF w m) (hpw : hasWildcard pat = w)
    (hl : l.pattern = pat) :
    bucketWF w (setA m pat (sortByPriority ((getA m pat).getD [] ++ [l]))) :=
  ⟨addBucket_entriesWF hw.1 hpw hl, setA_keys_nodup hw.2⟩

/-- `add` pushes exactly the fresh id onto the store's id multiset. -/
theorem add_storeIds_perm (s : Store) (pat : String) (opts : SubscribeOptions)
    (now : Nat) :
    (storeIds (add s pat opts now).2).Perm (s.nextId :: storeIds s) := by
  by_cases hw : hasWildcard pat = true
  · simp only [add, getMapForPattern, setBucket, hw, if_true, storeIds_eq]
    have h := addBucket_perm s.wildcardPatterns pat
      { id := s.nextId, priority := opts.priority.getD 0, once := opts.once.getD false,
        pattern := pat, addedAt := now, executionCount := 0, totalDuration := 0 }
    have h' := h.map fun l => l.id
    refine (List.Perm.append_left _ h').trans ?_
    simp only [List.map_cons]
    exact List.perm_middle.trans (by simp [mapIds])
  · have hw' : hasWildcard pat = false := by simpa using hw
    simp only [add, getMapForPattern, setBucket, hw', Bool.false_eq_true, if_false,
      storeIds_eq]
    have h := addBucket_perm s.exactMatches pat
      { id := s.nextId, priority := opts.priority.getD 0, once := opts.once.getD false,
        pattern := pat, addedAt := now, executionCount := 0, totalDuration := 0 }
    have h' := h.map fun l => l.id
    exact (List.Perm.append_right _ h').trans (by simp [mapIds])

theorem WF_add {s : Store} (h : WF s) (pat : String) (opts : SubscribeOptions)
    (now : Nat) : WF (add s pat opts now).2 := by
  obtain ⟨hex, hwi, hnd, hlt⟩ := h
  have hperm := add_storeIds_perm s pat opts now
  have hfresh : s.nextId ∉ storeIds s := fun hmem => lt_irrefl _ (hlt _ hmem)
  refine ⟨?_, ?_, ?_, ?_⟩
  · by_cases hw : hasWildcard pat = true
    · simpa only [add, getMapForPattern, setBucket, hw, if_true] using hex
    · have hw' : hasWildcard pat = false := by simpa using hw
      simp only [add, getMapForPattern, setBucket, hw', Bool.false_eq_true, if_false]
      exact addBucket_bucketWF hex hw' rfl
  · by_cases hw : hasWildcard pat = true
    · simp only [add, getMapForPattern, setBucket, hw, if_true]
      exact addBucket_bucketWF hwi hw rfl
    · have hw' : hasWildcard pat = false := by simpa using hw
      simpa only [add, getMapForPattern, setBucket, hw', Bool.false_eq_true,
        if_false] using hwi
  · exact hperm.nodup_iff.mpr (List.nodup_cons.mpr ⟨hfresh, hnd⟩)
  · intro i hi
    have hnext : (add s pat opts now).2.nextId = s.nextId + 1 := by
      by_cases hw : hasWildcard pat = true <;>
        simp [add, setBucket, getMapForPattern, hw]
    rw [hnext]
    rcases List.mem_cons.mp (hperm.subset hi) with rfl | hi'
    · omega
    · exact lt_trans (hlt _ hi') (by omega)

/-! ## Preservation lemmas: `remove` and `removeById` -/

theorem setBucket_getMap_self (s : Store) (pat : String) :
    setBucket s pat (getMapForPattern s pat) = s := by
  by_cases hw : hasWildcard pat = true <;> simp [setBucket, getMapForPattern, hw]

theorem delA_map_fst_sublist {α : Type} (m : List (String × α)) (k : String) :
    ((delA m k).map Prod.fst).Sublist (m.map Prod.fst) :=
  (List.filter_sublist m).map Prod.fst

theorem delA_mem {α : Type} {m : List (String × α)} {k : String} {e : String × α}
    (h : e ∈ delA m k) : e ∈ m ∧ e.1 ≠ k := by
  unfold delA at h
  have := List.mem_filter.mp h
  exact ⟨this.1, by simpa using this.2⟩

/-- The bucket update performed by `remove`. -/
theorem removeBucket_sublist (m : List (String × List Listener)) (pat : String)
    (i : Nat) :
    (mapListenersAll
      (if (((getA m pat).getD []).filter fun l => l.id != i).isEmpty
        then delA m pat
        else setA m pat (((getA m pat).getD []).filter fun l => l.id != i))).Sublist
      (mapListenersAll m) := by
  by_cases hemp : (((getA m pat).getD []).filter fun l => l.id != i).isEmpty = true
  · rw [if_pos hemp]
    exact mapListenersAll_filter_sublist _ m
  · rw [if_neg hemp]
    cases hget : getA m pat with
    | none =>
      rw [hget] at hemp
      simp at hemp
    | some ls =>
      obtain ⟨m₁, m₂, hm, _, hset⟩ := getA_some_decomp hget
      rw [hget] at hemp
      simp only [Option.getD_some] at hemp ⊢
      rw [hset, hm, mapListenersAll_append, mapListenersAll_append,
        mapListenersAll_cons, mapListenersAll_cons]
      exact List.Sublist.append_left
        (List.Sublist.append (List.filter_sublist ls) (List.Sublist.refl _)) _

theorem removeBucket_bucketWF {w : Bool} {m : List (String × List Listener)}
    {pat : String} {i : Nat} (hw : bucketWF w m) :
    bucketWF w
      (if (((getA m pat).getD []).filter fun l => l.id != i).isEmpty
        then delA m pat
        else setA m pat (((getA m pat).getD []).filter fun l => l.id != i)) := by
  by_cases hemp : (((getA m pat).getD []).filter fun l => l.id != i).isEmpty = true
  · rw [if_pos hemp]
    constructor
    · intro e he
      exact hw.1 e (delA_mem he).1
    · exact (delA_map_fst_sublist m pat).nodup hw.2
  · rw [if_neg hemp]
    cases hget : getA m pat with
    | none =>
      rw [hget] at hemp
      simp at hemp
    | some ls =>
      obtain ⟨m₁, m₂, hm, _, hset⟩ := getA_some_decomp hget
      rw [hget] at hemp
      simp only [Option.getD_some] at hemp ⊢
      constructor
      · intro e he
        rw [hset] at he
        rcases List.mem_append.mp he with he | he
        · exact hw.1 e (hm ▸ List.mem_append_left _ he)
        · rcases List.mem_cons.mp he with rfl | he
          · have hold := hw.1 (pat, ls) (hm ▸ List.mem_append_right _ (List.mem_cons_self _ _))
            refine ⟨by simpa using hemp, ?_, hold.2.2⟩
            intro x hx
            exact hold.2.1 x (List.mem_filter.mp hx).1
          · exact hw.1 e (hm ▸ List.mem_append_right _ (List.mem_cons_of_mem _ he))
      · exact setA_keys_nodup hw.2

/-- After `remove(pat, i)`, no listener with id `i` remains, provided every
id-`i` listener of the store was registered under `pat`. -/
theorem removeBucket_no_id {w : Bool} {m : List (String × List Listener)}
    {pat : String} {i : Nat} (hw : bucketWF w m)
    (hloc : ∀ l ∈ mapListenersAll m, l.id = i → l.pattern = pat) :
    ∀ l ∈ mapListenersAll
      (if (((getA m pat).getD []).filter fun l => l.id != i).isEmpty
        then delA m pat
        else setA m pat (((getA m pat).getD []).filter fun l => l.id != i)),
      l.id ≠ i := by
  by_cases hemp : (((getA m pat).getD []).filter fun l => l.id != i).isEmpty = true
  · rw [if_pos hemp]
    intro l hl hli
    obtain ⟨e, he, hle⟩ := mem_mapListenersAll.mp hl
    obtain ⟨hem, hek⟩ := delA_mem he
    have hlp : l.pattern = pat :=
      hloc l (mem_mapListenersAll.mpr ⟨e, hem, hle⟩) hli
    exact hek ((hw.1 e hem).2.1 l hle ▸ hlp)
  · rw [if_neg hemp]
    cases hget : getA m pat with
    | none =>
      rw [hget] at hemp
      simp at hemp
    | some ls =>
      obtain ⟨m₁, m₂, hm, hnot, hset⟩ := getA_some_decomp hget
      rw [hget] at hemp
      simp only [Option.getD_some] at hemp ⊢
      have hkeys : pat ∉ m₂.map Prod.fst := by
        have := hw.2
        rw [hm] at this
        simp only [List.map_append, List.map_cons] at this
        have := (List.nodup_append.mp this).2.1
        exact (List.nodup_cons.mp this).1
      intro l hl hli
      rw [hset] at hl
      obtain ⟨e, he, hle⟩ := mem_mapListenersAll.mp hl
      rcases List.mem_append.mp he with he | he
      · have hm' : e ∈ m := hm ▸ List.mem_append_left _ he
        have hlp : l.pattern = pat :=
          hloc l (mem_mapListenersAll.mpr ⟨e, hm', hle⟩) hli
        exact hnot e he ((hw.1 e hm').2.1 l hle ▸ hlp)
      · rcases List.mem_cons.mp he with rfl | he
        · have := (List.mem_filter.mp hle).2
          simp only [bne_iff_ne, ne_eq] at this
          exact this hli
        · have hm' : e ∈ m := hm ▸ List.mem_append_right _ (List.mem_cons_of_mem _ he)
          have hlp : l.pattern = pat :=
            hloc l (mem_mapListenersAll.mpr ⟨e, hm', hle⟩) hli
          have heq : e.1 = pat := (hw.1 e hm').2.1 l hle ▸ hlp
          exact hkeys (heq ▸ List.mem_map_of_mem Prod.fst he)

theorem WF_bucket_self {s : Store} (h : WF s) (pat : String) :
    bucketWF (hasWildcard pat) (getMapForPattern s pat) := by
  by_cases hw : hasWildcard pat = true
  · simpa [getMapForPattern, hw] using h.2.1
  · have hw' : hasWildcard pat = false := by simpa using hw
    simpa [getMapForPattern, hw'] using h.1

theorem remove_storeIds_sublist (s : Store) (pat : String) (i : Nat) :
    (storeIds (remove s pat i).2).Sublist (storeIds s) := by
  have hsub := (removeBucket_sublist (getMapForPattern s pat) pat i).map fun l => l.id
  by_cases hw : hasWildcard pat = true
  · simp only [getMapForPattern, hw, if_true] at hsub
    simp only [remove, setBucket, getMapForPattern, hw, if_true, storeIds_eq]
    exact List.Sublist.append (List.Sublist.refl _) hsub
  · have hw' : hasWildcard pat = false := by simpa using hw
    simp only [getMapForPattern, hw', Bool.false_eq_true, if_false] at hsub
    simp only [remove, setBucket, getMapForPattern, hw', Bool.false_eq_true, if_false,
      storeIds_eq]
    exact List.Sublist.append hsub (List.Sublist.refl _)

theorem WF_remove {s : Store} (h : WF s) (pat : String) (i : Nat) :
    WF (remove s pat i).2 := by
  obtain ⟨hex, hwi, hnd, hlt⟩ := h
  have hids := remove_storeIds_sublist s pat i
  have hnext : (remove s pat i).2.nextId = s.nextId := by
    by_cases hw : hasWildcard pat = true <;> simp [remove, setBucket, hw]
  refine ⟨?_, ?_, hids.nodup hnd, ?_⟩
  · by_cases hw : hasWildcard pat = true
    · simpa only [remove, setBucket, getMapForPattern, hw, if_true] using hex
    · have hw' : hasWildcard pat = false := by simpa using hw
      simp only [remove, setBucket, getMapForPattern, hw', Bool.false_eq_true, if_false]
      exact removeBucket_bucketWF hex
  · by_cases hw : hasWildcard pat = true
    · simp only [remove, setBucket, getMapForPattern, hw, if_true]
      exact removeBucket_bucketWF hwi
    · have hw' : hasWildcard pat = false := by simpa using hw
      simpa only [remove, setBucket, getMapForPattern, hw', Bool.false_eq_true,
        if_false] using hwi
  · intro j hj
    rw [hnext]
    exact hlt j (hids.subset hj)

/-- `remove` with a pattern/id pair that is not in the store is a no-op
returning `false`. -/
theorem remove_noop {s : Store} {pat : String} {i : Nat}
    (hwf : bucketWF (hasWildcard pat) (getMapForPattern s pat))
    (hno : ∀ l ∈ (getA (getMapForPattern s pat) pat).getD [], l.id ≠ i) :
    remove s pat i = (false, s) := by
  simp only [remove]
  cases hget : getA (getMapForPattern s pat) pat with
  | none =>
    have hnm := getA_eq_none_iff.mp hget
    simp only [hget, Option.getD_none, List.filter_nil, List.isEmpty_nil, if_true,
      delA_eq_of_not_mem hnm, setBucket_getMap_self]
    simp
  | some ls =>
    have hlsne : ls ≠ [] := (hwf.1 (pat, ls) (getA_mem hget)).1
    rw [hget] at hno
    simp only [Option.getD_some] at hno
    have hfe : (ls.filter fun l => l.id != i) = ls :=
      List.filter_eq_self.mpr fun l hl => by simpa using hno l hl
    obtain ⟨m₁, m₂, hm, _, hset⟩ := getA_some_decomp hget
    simp only [hget, Option.getD_some, hfe]
    have hne : ¬(ls.isEmpty = true) := fun hh => hlsne (List.isEmpty_iff.mp hh)
    rw [if_neg hne, hset ls, ← hm, setBucket_getMap_self]
    simp

/-! ## Lemmas about `removeListenerById` and `removeById` -/

theorem mapIds_cons (e : String × List Listener) (m : List (String × List Listener)) :
    mapIds (e :: m) = (e.2.map fun l => l.id) ++ mapIds m := by
  simp [mapIds, mapListenersAll_cons]

theorem removeListenerById_not_found {m : List (String × List Listener)} {i : Nat}
    (h : ∀ l ∈ mapListenersAll m, l.id ≠ i) : removeListenerById m i = (none, m) := by
  induction m with
  | nil => rfl
  | cons e rest ih =>
    obtain ⟨pattern, listeners⟩ := e
    have hany : (listeners.any fun l => l.id == i) = false := by
      rw [List.any_eq_false]
      intro l hl
      simpa using h l (mem_mapListenersAll.mpr
        ⟨(pattern, listeners), List.mem_cons_self _ _, hl⟩)
    have hrest := ih fun l hl => h l (by
      rw [mapListenersAll_cons]
      exact List.mem_append_right _ hl)
    simp only [removeListenerById, hany, Bool.false_eq_true, if_false, hrest]

theorem removeListenerById_sublist (m : List (String × List Listener)) (i : Nat) :
    (mapListenersAll (removeListenerById m i).2).Sublist (mapListenersAll m) := by
  induction m with
  | nil => simp [removeListenerById]
  | cons e rest ih =>
    obtain ⟨pattern, listeners⟩ := e
    by_cases hany : (listeners.any fun l => l.id == i) = true
    · simp only [removeListenerById, hany, if_true]
      by_cases hemp : (listeners.filter fun l => l.id != i).isEmpty = true
      · rw [if_pos hemp]
        simp only [mapListenersAll_cons]
        exact List.sublist_append_right _ _
      · rw [if_neg hemp]
        simp only [mapListenersAll_cons]
        exact List.Sublist.append (List.filter_sublist _) (List.Sublist.refl _)
    · have hany' : (listeners.any fun l => l.id == i) = false := by simpa using hany
      simp only [removeListenerById, hany', Bool.false_eq_true, if_false,
        mapListenersAll_cons]
      exact ih.append_left _

theorem removeListenerById_keys_sublist (m : List (String × List Listener)) (i : Nat) :
    ((removeListenerById m i).2.map Prod.fst).Sublist (m.map Prod.fst) := by
  induction m with
  | nil => simp [removeListenerById]
  | cons e rest ih =>
    obtain ⟨pattern, listeners⟩ := e
    by_cases hany : (listeners.any fun l => l.id == i) = true
    · simp only [removeListenerById, hany, if_true]
      by_cases hemp : (listeners.filter fun l => l.id != i).isEmpty = true
      · rw [if_pos hemp]
        simp only [List.map_cons]
        exact (List.Sublist.refl _).cons _
      · rw [if_neg hemp]
        simp only [List.map_cons]
        exact (List.Sublist.refl _).cons₂ _
    · have hany' : (listeners.any fun l => l.id == i) = false := by simpa using hany
      simp only [removeListenerById, hany', Bool.false_eq_true, if_false, List.map_cons]
      exact ih.cons₂ _

theorem removeListenerById_entriesWF {w : Bool} {m : List (String × List Listener)}
    {i : Nat} (hw : bucketEntriesWF w m) :
    bucketEntriesWF w (removeListenerById m i).2 := by
  induction m with
  | nil => simpa [removeListenerById] using hw
  | cons e rest ih =>
    obtain ⟨pattern, listeners⟩ := e
    have hhead := hw (pattern, listeners) (List.mem_cons_self _ _)
    have hrest : bucketEntriesWF w rest := fun e he => hw e (List.mem_cons_of_mem _ he)
    by_cases hany : (listeners.any fun l => l.id == i) = true
    · simp only [removeListenerById, hany, if_true]
      by_cases hemp : (listeners.filter fun l => l.id != i).isEmpty = true
      · rw [if_pos hemp]
        exact hrest
      · rw [if_neg hemp]
        intro e he
        rcases List.mem_cons.mp he with rfl | he
        · refine ⟨by simpa using hemp, ?_, hhead.2.2⟩
          intro l hl
          exact hhead.2.1 l (List.mem_filter.mp hl).1
        · exact hrest e he
    · have hany' : (listeners.any fun l => l.id == i) = false := by simpa using hany
      simp only [removeListenerById, hany', Bool.false_eq_true, if_false]
      intro e he
      rcases List.mem_cons.mp he with rfl | he
      · exact hhead
      · exact ih hrest e he

theorem removeListenerById_bucketWF {w : Bool} {m : List (String × List Listener)}
    {i : Nat} (hw : bucketWF w m) : bucketWF w (removeListenerById m i).2 :=
  ⟨removeListenerById_entriesWF hw.1, (removeListenerById_keys_sublist m i).nodup hw.2⟩

theorem removeListenerById_id_not_mem {m : List (String × List Listener)} {i : Nat}
    (hnd : (mapIds m).Nodup) :
    ∀ l ∈ mapListenersAll (removeListenerById m i).2, l.id ≠ i := by
  induction m with
  | nil => simp [removeListenerById, mapListenersAll_nil]
  | cons e rest ih =>
    obtain ⟨pattern, listeners⟩ := e
    rw [mapIds_cons] at hnd
    have hdisj := List.disjoint_of_nodup_append hnd
    have hndr : (mapIds rest).Nodup := (List.nodup_append.mp hnd).2.1
    by_cases hany : (listeners.any fun l => l.id == i) = true
    · obtain ⟨x, hx, hxi⟩ := List.any_eq_true.mp hany
      have hie : i ∈ listeners.map fun l => l.id := by
        rw [List.mem_map]
        exact ⟨x, hx, by simpa using hxi⟩
      have hir : i ∉ mapIds rest := fun hmem => hdisj hie hmem
      simp only [removeListenerById, hany, if_true]
      by_cases hemp : (listeners.filter fun l => l.id != i).isEmpty = true
      · rw [if_pos hemp]
        intro l hl hli
        exact hir (hli ▸ List.mem_map_of_mem (fun l => l.id) hl)
      · rw [if_neg hemp]
        intro l hl hli
        rw [mapListenersAll_cons] at hl
        rcases List.mem_append.mp hl with hl | hl
        · have := (List.mem_filter.mp hl).2
          simp only [bne_iff_ne, ne_eq] at this
          exact this hli
        · exact hir (hli ▸ List.mem_map_of_mem (fun l => l.id) hl)
    · have hany' : (listeners.any fun l => l.id == i) = false := by simpa using hany
      simp only [removeListenerById, hany', Bool.false_eq_true, if_false]
      intro l hl hli
      rw [mapListenersAll_cons] at hl
      rcases List.mem_append.mp hl with hl | hl
      · have := List.any_eq_false.mp hany' l hl
        simp only [beq_iff_eq] at this
        exact this hli
      · exact ih hndr l hl hli

theorem removeListenerById_mem_of_ne {m : List (String × List Listener)} {i : Nat}
    {l : Listener} (hl : l ∈ mapListenersAll m) (hne : l.id ≠ i) :
    l ∈ mapListenersAll (removeListenerById m i).2 := by
  induction m with
  | nil => simpa using hl
  | cons e rest ih =>
    obtain ⟨pattern, listeners⟩ := e
    rw [mapListenersAll_cons] at hl
    by_cases hany : (listeners.any fun l => l.id == i) = true
    · simp only [removeListenerById, hany, if_true]
      rcases List.mem_append.mp hl with hl | hl
      · have hmemf : l ∈ listeners.filter fun l => l.id != i :=
          List.mem_filter.mpr ⟨hl, by simpa using hne⟩
        have hemp : ¬((listeners.filter fun l => l.id != i).isEmpty = true) := by
          intro hh
          rw [List.isEmpty_iff.mp hh] at hmemf
          simp at hmemf
        rw [if_neg hemp]
        rw [mapListenersAll_cons]
        exact List.mem_append_left _ hmemf
      · by_cases hemp : (listeners.filter fun l => l.id != i).isEmpty = true
        · rw [if_pos hemp]
          exact hl
        · rw [if_neg hemp]
          rw [mapListenersAll_cons]
          exact List.mem_append_right _ hl
    · have hany' : (listeners.any fun l => l.id == i) = false := by simpa using hany
      simp only [removeListenerById, hany', Bool.false_eq_true, if_false]
      rw [mapListenersAll_cons]
      rcases List.mem_append.mp hl with hl | hl
      · exact List.mem_append_left _ hl
      · exact List.mem_append_right _ (ih hl)

theorem removeListenerById_none_imp {m : List (String × List Listener)} {i : Nat}
    (h : (removeListenerById m i).1 = none) :
    ∀ l ∈ mapListenersAll m, l.id ≠ i := by
  induction m with
  | nil => simp [mapListenersAll_nil]
  | cons e rest ih =>
    obtain ⟨pattern, listeners⟩ := e
    by_cases hany : (listeners.any fun l => l.id == i) = true
    · exfalso
      simp only [removeListenerById, hany, if_true] at h
      by_cases hemp : (listeners.filter fun l => l.id != i).isEmpty = true
      · rw [if_pos hemp] at h
        simp at h
      · rw [if_neg hemp] at h
        simp at h
    · have hany' : (listeners.any fun l => l.id == i) = false := by simpa using hany
      simp only [removeListenerById, hany', Bool.false_eq_true, if_false] at h
      intro l hl hli
      rw [mapListenersAll_cons] at hl
      rcases List.mem_append.mp hl with hl | hl
      · have := List.any_eq_false.mp hany' l hl
        simp only [beq_iff_eq] at this
        exact this hli
      · exact ih h l hl hli

theorem removeById_noop {s : Store} {i : Nat} (h : i ∉ storeIds s) :
    removeById s i = (none, s) := by
  have hex : ∀ l ∈ mapListenersAll s.exactMatches, l.id ≠ i := by
    intro l hl hli
    refine h ?_
    rw [storeIds_eq]
    exact List.mem_append_left _ (hli ▸ List.mem_map_of_mem _ hl)
  have hwi : ∀ l ∈ mapListenersAll s.wildcardPatterns, l.id ≠ i := by
    intro l hl hli
    refine h ?_
    rw [storeIds_eq]
    exact List.mem_append_right _ (hli ▸ List.mem_map_of_mem _ hl)
  simp only [removeById, removeListenerById_not_found hex,
    removeListenerById_not_found hwi]

theorem removeById_storeIds_sublist (s : Store) (i : Nat) :
    (storeIds (removeById s i).2).Sublist (storeIds s) := by
  rcases h1 : removeListenerById s.exactMatches i with ⟨r1, m1⟩
  have hs1 := (removeListenerById_sublist s.exactMatches i).map fun l => l.id
  rw [h1] at hs1
  cases r1 with
  | some p =>
    simp only [removeById, h1, storeIds_eq]
    exact List.Sublist.append hs1 (List.Sublist.refl _)
  | none =>
    rcases h2 : removeListenerById s.wildcardPatterns i with ⟨r2, m2⟩
    have hs2 := (removeListenerById_sublist s.wildcardPatterns i).map fun l => l.id
    rw [h2] at hs2
    cases r2 with
    | some p =>
      simp only [removeById, h1, h2, storeIds_eq]
      exact List.Sublist.append (List.Sublist.refl _) hs2
    | none =>
      simp only [removeById, h1, h2]
      exact List.Sublist.refl _

theorem WF_removeById {s : Store} (h : WF s) (i : Nat) : WF (removeById s i).2 := by
  obtain ⟨hex, hwi, hnd, hlt⟩ := h
  have hids := removeById_storeIds_sublist s i
  have hnext : (removeById s i).2.nextId = s.nextId := by
    rcases h1 : removeListenerById s.exactMatches i with ⟨r1, m1⟩
    cases r1 with
    | some p => simp [removeById, h1]
    | none =>
      rcases h2 : removeListenerById s.wildcardPatterns i with ⟨r2, m2⟩
      cases r2 with
      | some p => simp [removeById, h1, h2]
      | none => simp [removeById, h1, h2]
  refine ⟨?_, ?_, hids.nodup hnd, fun j hj => hnext ▸ hlt j (hids.subset hj)⟩
  · rcases h1 : removeListenerById s.exactMatches i with ⟨r1, m1⟩
    have hb := removeListenerById_bucketWF (i := i) hex
    rw [h1] at hb
    cases r1 with
    | some p => simpa [removeById, h1] using hb
    | none =>
      rcases h2 : removeListenerById s.wildcardPatterns i with ⟨r2, m2⟩
      cases r2 with
      | some p => simpa [removeById, h1, h2] using hex
      | none => simpa [removeById, h1, h2] using hex
  · rcases h1 : removeListenerById s.exactMatches i with ⟨r1, m1⟩
    cases r1 with
    | some p => simpa [removeById, h1] using hwi
    | none =>
      rcases h2 : removeListenerById s.wildcardPatterns i with ⟨r2, m2⟩
      have hb := removeListenerById_bucketWF (i := i) hwi
      rw [h2] at hb
      cases r2 with
      | some p => simpa [removeById, h1, h2] using hb
      | none => simpa [removeById, h1, h2] using hwi

theorem removeById_not_mem {s : Store} (h : WF s) (i : Nat) :
    i ∉ storeIds (removeById s i).2 := by
  obtain ⟨_, _, hnd, _⟩ := h
  rw [storeIds_eq] at hnd
  have hdisj := List.disjoint_of_nodup_append hnd
  have hndex : (mapIds s.exactMatches).Nodup := (List.nodup_append.mp hnd).1
  have hndwi : (mapIds s.wildcardPatterns).Nodup := (List.nodup_append.mp hnd).2.1
  rcases h1 : removeListenerById s.exactMatches i with ⟨r1, m1⟩
  cases r1 with
  | some p =>
    have hnm := removeListenerById_id_not_mem (i := i) hndex
    rw [h1] at hnm
    have hie : i ∈ mapIds s.exactMatches := by
      by_contra hni
      have hni' : ∀ l ∈ mapListenersAll s.exactMatches, l.id ≠ i := by
        intro l hl hli
        exact hni (hli ▸ List.mem_map_of_mem _ hl)
      rw [removeListenerById_not_found hni'] at h1
      simp at h1
    have hiw : i ∉ mapIds s.wildcardPatterns := fun hmem => hdisj hie hmem
    simp only [removeById, h1, storeIds_eq]
    intro hmem
    rcases List.mem_append.mp hmem with hmem | hmem
    · obtain ⟨l, hl, hli⟩ := List.mem_map.mp hmem
      exact hnm l hl hli
    · exact hiw hmem
  | none =>
    have hni' := removeListenerById_none_imp (m := s.exactMatches) (i := i)
      (by rw [h1])
    rcases h2 : removeListenerById s.wildcardPatterns i with ⟨r2, m2⟩
    have hnm := removeListenerById_id_not_mem (i := i) hndwi
    rw [h2] at hnm
    cases r2 with
    | some p =>
      simp only [removeById, h1, h2, storeIds_eq]
      intro hmem
      rcases List.mem_append.mp hmem with hmem | hmem
      · obtain ⟨l, hl, hli⟩ := List.mem_map.mp hmem
        exact hni' l hl hli
      · obtain ⟨l, hl, hli⟩ := List.mem_map.mp hmem
        exact hnm l hl hli
    | none =>
      have hni2 := removeListenerById_none_imp (m := s.wildcardPatterns) (i := i)
        (by rw [h2])
      simp only [removeById, h1, h2, storeIds_eq]
      intro hmem
      rcases List.mem_append.mp hmem with hmem | hmem
      · obtain ⟨l, hl, hli⟩ := List.mem_map.mp hmem
        exact hni' l hl hli
      · obtain ⟨l, hl, hli⟩ := List.mem_map.mp hmem
        exact hni2 l hl hli

theorem removeById_mem_of_ne {s : Store} {i : Nat} {l : Listener}
    (hl : l ∈ storeListeners s) (hne : l.id ≠ i) :
    l ∈ storeListeners (removeById s i).2 := by
  rw [storeListeners] at hl
  rcases h1 : removeListenerById s.exactMatches i with ⟨r1, m1⟩
  cases r1 with
  | some p =>
    simp only [removeById, h1, storeListeners]
    rcases List.mem_append.mp hl with hl | hl
    · have hkeep := removeListenerById_mem_of_ne (i := i) hl hne
      rw [h1] at hkeep
      exact List.mem_append_left _ hkeep
    · exact List.mem_append_right _ hl
  | none =>
    rcases h2 : removeListenerById s.wildcardPatterns i with ⟨r2, m2⟩
    cases r2 with
    | some p =>
      simp only [removeById, h1, h2, storeListeners]
      rcases List.mem_append.mp hl with hl | hl
      · exact List.mem_append_left _ hl
      · have hkeep := removeListenerById_mem_of_ne (i := i) hl hne
        rw [h2] at hkeep
        exact List.mem_append_right _ hkeep
    | none =>
      simp only [removeById, h1, h2, storeListeners]
      exact hl

/-! ## Preservation lemmas: `removeAll`, `updateStats`, marking -/

theorem WF_removeAll {s : Store} (h : WF s) (event : Option String) :
    WF (removeAll s event).2 := by
  obtain ⟨hex, hwi, hnd, hlt⟩ := h
  cases event with
  | none =>
    refine ⟨⟨by simp [removeAll, bucketEntriesWF], by simp [removeAll]⟩,
      ⟨by simp [removeAll, bucketEntriesWF], by simp [removeAll]⟩, ?_, ?_⟩
    · simp [removeAll, storeIds_eq, mapIds, mapListenersAll_nil]
    · simp [removeAll, storeIds_eq, mapIds, mapListenersAll_nil]
  | some ev =>
    have hsub : (storeIds (removeAll s (some ev)).2).Sublist (storeIds s) := by
      simp only [removeAll, storeIds_eq]
      exact List.Sublist.append
        ((mapListenersAll_filter_sublist _ _).map _)
        ((mapListenersAll_filter_sublist _ _).map _)
    refine ⟨?_, ?_, hsub.nodup hnd, ?_⟩
    · exact ⟨fun e he => hex.1 e (delA_mem he).1, (delA_map_fst_sublist _ _).nodup hex.2⟩
    · exact ⟨fun e he => hwi.1 e (delA_mem he).1, (delA_map_fst_sublist _ _).nodup hwi.2⟩
    · intro j hj
      have : (removeAll s (some ev)).2.nextId = s.nextId := rfl
      rw [this]
      exact hlt j (hsub.subset hj)

theorem updateFirstById_map_id (ls : List Listener) (i : Nat) (d : ℚ) :
    (updateFirstById ls i d).map (fun l => l.id) = ls.map fun l => l.id := by
  induction ls with
  | nil => rfl
  | cons l rest ih =>
    by_cases hl : (l.id == i) = true
    · simp [updateFirstById, hl]
    · have hl' : (l.id == i) = false := by simpa using hl
      simp [updateFirstById, hl', ih]

theorem updateFirstById_exists {ls : List Listener} {i : Nat} {d : ℚ} :
    ∀ l' ∈ updateFirstById ls i d, ∃ l ∈ ls, l'.id = l.id ∧ l'.pattern = l.pattern := by
  induction ls with
  | nil => simp [updateFirstById]
  | cons l rest ih =>
    by_cases hl : (l.id == i) = true
    · simp only [updateFirstById, hl, if_true]
      intro l' hl'
      rcases List.mem_cons.mp hl' with rfl | hl'
      · exact ⟨l, List.mem_cons_self _ _, rfl, rfl⟩
      · exact ⟨l', List.mem_cons_of_mem _ hl', rfl, rfl⟩
    · have hl' : (l.id == i) = false := by simpa using hl
      simp only [updateFirstById, hl', Bool.false_eq_true, if_false]
      intro x hx
      rcases List.mem_cons.mp hx with rfl | hx
      · exact ⟨x, List.mem_cons_self _ _, rfl, rfl⟩
      · obtain ⟨l₀, hl₀, h₁, h₂⟩ := ih x hx
        exact ⟨l₀, List.mem_cons_of_mem _ hl₀, h₁, h₂⟩

theorem updateFirstById_mem_of_ne {ls : List Listener} {i : Nat} {d : ℚ}
    {l : Listener} (hl : l ∈ ls) (hne : l.id ≠ i) :
    l ∈ updateFirstById ls i d := by
  induction ls with
  | nil => simp at hl
  | cons x rest ih =>
    by_cases hx : (x.id == i) = true
    · simp only [updateFirstById, hx, if_true]
      rcases List.mem_cons.mp hl with rfl | hl
      · exact absurd (beq_iff_eq.mp hx) hne
      · exact List.mem_cons_of_mem _ hl
    · have hx' : (x.id == i) = false := by simpa using hx
      simp only [updateFirstById, hx', Bool.false_eq_true, if_false]
      rcases List.mem_cons.mp hl with rfl | hl
      · exact List.mem_cons_self _ _
      · exact List.mem_cons_of_mem _ (ih hl)

theorem findAndUpdate_keys (m : List (String × List Listener)) (i : Nat) (d : ℚ) :
    ((findAndUpdate m i d).2).map Prod.fst = m.map Prod.fst := by
  induction m with
  | nil => rfl
  | cons e rest ih =>
    obtain ⟨pattern, listeners⟩ := e
    by_cases hany : (listeners.any fun l => l.id == i) = true
    · simp [findAndUpdate, hany]
    · have hany' : (listeners.any fun l => l.id == i) = false := by simpa using hany
      simp [findAndUpdate, hany', ih]

theorem findAndUpdate_mapIds (m : List (String × List Listener)) (i : Nat) (d : ℚ) :
    mapIds (findAndUpdate m i d).2 = mapIds m := by
  induction m with
  | nil => rfl
  | cons e rest ih =>
    obtain ⟨pattern, listeners⟩ := e
    by_cases hany : (listeners.any fun l => l.id == i) = true
    · simp [findAndUpdate, hany, mapIds_cons, updateFirstById_map_id]
    · have hany' : (listeners.any fun l => l.id == i) = false := by simpa using hany
      simp [findAndUpdate, hany', mapIds_cons, ih]

theorem findAndUpdate_bucketWF {w : Bool} {m : List (String × List Listener)}
    {i : Nat} {d : ℚ} (hw : bucketWF w m) : bucketWF w (findAndUpdate m i d).2 := by
  refine ⟨?_, by rw [findAndUpdate_keys]; exact hw.2⟩
  induction m with
  | nil => simpa [findAndUpdate] using hw.1
  | cons e rest ih =>
    obtain ⟨pattern, listeners⟩ := e
    have hhead := hw.1 (pattern, listeners) (List.mem_cons_self _ _)
    have hrest : bucketWF w rest :=
      ⟨fun e he => hw.1 e (List.mem_cons_of_mem _ he), (List.nodup_cons.mp (by
        simpa using hw.2)).2⟩
    by_cases hany : (listeners.any fun l => l.id == i) = true
    · simp only [findAndUpdate, hany, if_true]
      intro e he
      rcases List.mem_cons.mp he with rfl | he
      · refine ⟨?_, ?_, hhead.2.2⟩
        · intro hnil
          have hnil' : updateFirstById listeners i d = [] := hnil
          have hlen := congrArg List.length (updateFirstById_map_id listeners i d)
          rw [hnil'] at hlen
          simp only [List.map_nil, List.length_nil, List.length_map] at hlen
          exact hhead.1 (List.eq_nil_of_length_eq_zero hlen.symm)
        · intro l hl
          obtain ⟨l₀, hl₀, _, hp⟩ := updateFirstById_exists l hl
          exact hp ▸ hhead.2.1 l₀ hl₀
      · exact hrest.1 e he
    · have hany' : (listeners.any fun l => l.id == i) = false := by simpa using hany
      simp only [findAndUpdate, hany', Bool.false_eq_true, if_false]
      intro e he
      rcases List.mem_cons.mp he with rfl | he
      · exact hhead
      · exact ih hrest e he

theorem findAndUpdate_mem_of_ne {m : List (String × List Listener)} {i : Nat}
    {d : ℚ} {l : Listener} (hl : l ∈ mapListenersAll m) (hne : l.id ≠ i) :
    l ∈ mapListenersAll (findAndUpdate m i d).2 := by
  induction m with
  | nil => simpa using hl
  | cons e rest ih =>
    obtain ⟨pattern, listeners⟩ := e
    rw [mapListenersAll_cons] at hl
    by_cases hany : (listeners.any fun l => l.id == i) = true
    · simp only [findAndUpdate, hany, if_true, mapListenersAll_cons]
      rcases List.mem_append.mp hl with hl | hl
      · exact List.mem_append_left _ (updateFirstById_mem_of_ne hl hne)
      · exact List.mem_append_right _ hl
    · have hany' : (listeners.any fun l => l.id == i) = false := by simpa using hany
      simp only [findAndUpdate, hany', Bool.false_eq_true, if_false, mapListenersAll_cons]
      rcases List.mem_append.mp hl with hl | hl
      · exact List.mem_append_left _ hl
      · exact List.mem_append_right _ (ih hl)

theorem updateStats_storeIds (s : Store) (i : Nat) (d : ℚ) :
    storeIds (updateStats s i d) = storeIds s := by
  by_cases hr : (findAndUpdate s.exactMatches i d).1 = true
  · simp only [updateStats, hr, if_true, storeIds_eq, findAndUpdate_mapIds]
  · simp only [updateStats, hr, Bool.false_eq_true, if_false, storeIds_eq,
      findAndUpdate_mapIds]

theorem WF_updateStats {s : Store} (h : WF s) (i : Nat) (d : ℚ) :
    WF (updateStats s i d) := by
  obtain ⟨hex, hwi, hnd, hlt⟩ := h
  have hids := updateStats_storeIds s i d
  have hnext : (updateStats s i d).nextId = s.nextId := by
    by_cases hr : (findAndUpdate s.exactMatches i d).1 = true <;>
      simp [updateStats, hr]
  refine ⟨?_, ?_, hids ▸ hnd, fun j hj => hnext ▸ hlt j (hids ▸ hj)⟩
  · by_cases hr : (findAndUpdate s.exactMatches i d).1 = true
    · simp only [updateStats, hr, if_true]
      exact findAndUpdate_bucketWF hex
    · simpa only [updateStats, hr, Bool.false_eq_true, if_false] using hex
  · by_cases hr : (findAndUpdate s.exactMatches i d).1 = true
    · simpa only [updateStats, hr, if_true] using hwi
    · simp only [updateStats, hr, Bool.false_eq_true, if_false]
      exact findAndUpdate_bucketWF hwi

theorem updateStats_mem_of_ne {s : Store} {i : Nat} {d : ℚ} {l : Listener}
    (hl : l ∈ storeListeners s) (hne : l.id ≠ i) :
    l ∈ storeListeners (updateStats s i d) := by
  rw [storeListeners] at hl
  by_cases hr : (findAndUpdate s.exactMatches i d).1 = true
  · simp only [updateStats, hr, if_true, storeListeners]
    rcases List.mem_append.mp hl with hl | hl
    · exact List.mem_append_left _ (findAndUpdate_mem_of_ne hl hne)
    · exact List.mem_append_right _ hl
  · simp only [updateStats, hr, Bool.false_eq_true, if_false, storeListeners]
    rcases List.mem_append.mp hl with hl | hl
    · exact List.mem_append_left _ hl
    · exact List.mem_append_right _ (findAndUpdate_mem_of_ne hl hne)

theorem markForRemoval_buckets (s : Store) (i : Nat) :
    (markForRemoval s i).exactMatches = s.exactMatches ∧
      (markForRemoval s i).wildcardPatterns = s.wildcardPatterns ∧
      (markForRemoval s i).nextId = s.nextId := by
  by_cases hc : i ∈ s.markedForRemoval <;> simp [markForRemoval, hc]

theorem WF_markForRemoval {s : Store} (h : WF s) (i : Nat) :
    WF (markForRemoval s i) := by
  obtain ⟨h1, h2, h3⟩ := markForRemoval_buckets s i
  obtain ⟨hex, hwi, hnd, hlt⟩ := h
  have hids : storeIds (markForRemoval s i) = storeIds s := by
    simp [storeIds_eq, h1, h2]
  exact ⟨h1 ▸ hex, h2 ▸ hwi, hids ▸ hnd, fun j hj => h3 ▸ hlt j (hids ▸ hj)⟩

theorem removeMarkedFromMap_sublist (marked : List Nat)
    (m : List (String × List Listener)) :
    (mapListenersAll (removeMarkedFromMap marked m)).Sublist (mapListenersAll m) := by
  induction m with
  | nil => exact List.Sublist.refl _
  | cons e rest ih =>
    obtain ⟨pattern, listeners⟩ := e
    simp only [removeMarkedFromMap, List.foldr_cons, mapListenersAll_cons]
    by_cases hemp : ((listeners.filter fun l => !(marked.contains l.id)).isEmpty) = true
    · rw [if_pos hemp]
      exact (ih.trans (List.sublist_append_right _ _))
    · rw [if_neg hemp]
      by_cases hch : ((listeners.filter fun l => !(marked.contains l.id)).length
          != listeners.length) = true
      · rw [if_pos hch]
        simp only [mapListenersAll_cons]
        exact List.Sublist.append (List.filter_sublist _) ih
      · rw [if_neg hch]
        simp only [mapListenersAll_cons]
        exact ih.append_left _

theorem removeMarkedFromMap_keys_sublist (marked : List Nat)
    (m : List (String × List Listener)) :
    ((removeMarkedFromMap marked m).map Prod.fst).Sublist (m.map Prod.fst) := by
  induction m with
  | nil => exact List.Sublist.refl _
  | cons e rest ih =>
    obtain ⟨pattern, listeners⟩ := e
    simp only [removeMarkedFromMap, List.foldr_cons, List.map_cons]
    by_cases hemp : ((listeners.filter fun l => !(marked.contains l.id)).isEmpty) = true
    · rw [if_pos hemp]
      exact ih.cons _
    · rw [if_neg hemp]
      by_cases hch : ((listeners.filter fun l => !(marked.contains l.id)).length
          != listeners.length) = true
      · rw [if_pos hch]
        simp only [List.map_cons]
        exact ih.cons₂ _
      · rw [if_neg hch]
        simp only [List.map_cons]
        exact ih.cons₂ _

theorem removeMarkedFromMap_entriesWF {w : Bool} {marked : List Nat}
    {m : List (String × List Listener)} (hw : bucketEntriesWF w m) :
    bucketEntriesWF w (removeMarkedFromMap marked m) := by
  induction m with
  | nil => simpa [removeMarkedFromMap] using hw
  | cons e rest ih =>
    obtain ⟨pattern, listeners⟩ := e
    have hhead := hw (pattern, listeners) (List.mem_cons_self _ _)
    have hrest : bucketEntriesWF w rest := fun e he => hw e (List.mem_cons_of_mem _ he)
    simp only [removeMarkedFromMap, List.foldr_cons]
    by_cases hemp : ((listeners.filter fun l => !(marked.contains l.id)).isEmpty) = true
    · rw [if_pos hemp]
      exact ih hrest
    · rw [if_neg hemp]
      by_cases hch : ((listeners.filter fun l => !(marked.contains l.id)).length
          != listeners.length) = true
      · rw [if_pos hch]
        intro e he
        rcases List.mem_cons.mp he with rfl | he
        · refine ⟨by simpa using hemp, ?_, hhead.2.2⟩
          intro l hl
          exact hhead.2.1 l (List.mem_filter.mp hl).1
        · exact ih hrest e he
      · rw [if_neg hch]
        intro e he
        rcases List.mem_cons.mp he with rfl | he
        · exact hhead
        · exact ih hrest e he

theorem WF_removeMarked {s : Store} (h : WF s) : WF (removeMarked s) := by
  by_cases hm : s.markedForRemoval.isEmpty = true
  · simpa [removeMarked, hm] using h
  · obtain ⟨hex, hwi, hnd, hlt⟩ := h
    have hsub : (storeIds (removeMarked s)).Sublist (storeIds s) := by
      simp only [removeMarked, hm, Bool.false_eq_true, if_false, storeIds_eq]
      exact List.Sublist.append
        ((removeMarkedFromMap_sublist _ _).map _)
        ((removeMarkedFromMap_sublist _ _).map _)
    refine ⟨?_, ?_, hsub.nodup hnd, ?_⟩
    · simp only [removeMarked, hm, Bool.false_eq_true, if_false]
      exact ⟨removeMarkedFromMap_entriesWF hex.1,
        (removeMarkedFromMap_keys_sublist _ _).nodup hex.2⟩
    · simp only [removeMarked, hm, Bool.false_eq_true, if_false]
      exact ⟨removeMarkedFromMap_entriesWF hwi.1,
        (removeMarkedFromMap_keys_sublist _ _).nodup hwi.2⟩
    · intro j hj
      have hnext : (removeMarked s).nextId = s.nextId := by
        simp [removeMarked, hm]
      rw [hnext]
      exact hlt j (hsub.subset hj)

/-! ## The executor, characterized -/

theorem executeHandler_eq (l : Listener) (b : HandlerBehavior) :
    executeHandler l b = (behaviorOk b && l.once) := by
  cases b <;> simp [executeHandler, behaviorOk]

theorem execute_invoked (listeners : List Listener) (behavior : Nat → HandlerBehavior) :
    (execute listeners behavior).invoked = listeners.map fun l => l.id := by
  induction listeners with
  | nil => rfl
  | cons l rest ih => simp [execute, ih]

theorem execute_toRemove (listeners : List Listener) (behavior : Nat → HandlerBehavior) :
    (execute listeners behavior).listenersToRemove =
      (listeners.filter fun l => behaviorOk (behavior l.id) && l.once).map fun l => l.id := by
  induction listeners with
  | nil => rfl
  | cons l rest ih =>
    simp only [execute, executeHandler_eq, List.filter_cons]
    by_cases hb : (behaviorOk (behavior l.id) && l.once) = true
    · simp [hb, ih]
    · have hb' : (behaviorOk (behavior l.id) && l.once) = false := by simpa using hb
      simp [hb', ih]

/-! ## Preservation lemmas: the emit flow -/

theorem WF_foldStats {behavior : Nat → HandlerBehavior} {dur : Nat → ℚ}
    {matching : List Listener} : ∀ {s : Store}, WF s →
    WF (matching.foldl
      (fun st l => if behaviorOk (behavior l.id) then updateStats st l.id (dur l.id)
        else st) s) := by
  induction matching with
  | nil => exact fun h => h
  | cons x rest ih =>
    intro s h
    simp only [List.foldl_cons]
    by_cases hb : behaviorOk (behavior x.id) = true
    · rw [if_pos hb]
      exact ih (WF_updateStats h _ _)
    · rw [if_neg hb]
      exact ih h

theorem foldStats_storeIds {behavior : Nat → HandlerBehavior} {dur : Nat → ℚ}
    {matching : List Listener} : ∀ {s : Store},
    storeIds (matching.foldl
      (fun st l => if behaviorOk (behavior l.id) then updateStats st l.id (dur l.id)
        else st) s) = storeIds s := by
  induction matching with
  | nil => exact fun {s} => rfl
  | cons x rest ih =>
    intro s
    simp only [List.foldl_cons]
    by_cases hb : behaviorOk (behavior x.id) = true
    · rw [if_pos hb, ih, updateStats_storeIds]
    · rw [if_neg hb, ih]

theorem foldStats_mem_of_ne {behavior : Nat → HandlerBehavior} {dur : Nat → ℚ}
    {matching : List Listener} {l : Listener}
    (hfail : behaviorOk (behavior l.id) = false) : ∀ {s : Store},
    l ∈ storeListeners s →
    l ∈ storeListeners (matching.foldl
      (fun st x => if behaviorOk (behavior x.id) then updateStats st x.id (dur x.id)
        else st) s) := by
  induction matching with
  | nil => exact fun h => h
  | cons x rest ih =>
    intro s hl
    simp only [List.foldl_cons]
    by_cases hb : behaviorOk (behavior x.id) = true
    · rw [if_pos hb]
      refine ih (updateStats_mem_of_ne hl ?_)
      intro hid
      rw [hid] at hfail
      rw [hfail] at hb
      exact Bool.false_ne_true hb
    · rw [if_neg hb]
      exact ih hl

theorem WF_foldRemove {ids : List Nat} : ∀ {s : Store}, WF s →
    WF (ids.foldl (fun st j => (removeById st j).2) s) := by
  induction ids with
  | nil => exact fun h => h
  | cons j rest ih =>
    intro s h
    simp only [List.foldl_cons]
    exact ih (WF_removeById h j)

theorem foldRemove_storeIds_sublist (ids : List Nat) : ∀ (s : Store),
    (storeIds (ids.foldl (fun st j => (removeById st j).2) s)).Sublist (storeIds s) := by
  induction ids with
  | nil => exact fun s => List.Sublist.refl _
  | cons j rest ih =>
    intro s
    simp only [List.foldl_cons]
    exact (ih _).trans (removeById_storeIds_sublist s j)

theorem foldRemove_not_mem {ids : List Nat} {i : Nat} : ∀ {s : Store}, WF s →
    i ∈ ids → i ∉ storeIds (ids.foldl (fun st j => (removeById st j).2) s) := by
  induction ids with
  | nil => intro s _ h; exact absurd h (List.not_mem_nil i)
  | cons j rest ih =>
    intro s hwf hmem
    simp only [List.foldl_cons]
    by_cases hij : i = j
    · subst hij
      intro hcontra
      exact removeById_not_mem hwf i
        ((foldRemove_storeIds_sublist rest _).subset hcontra)
    · exact ih (WF_removeById hwf j) (List.mem_of_ne_of_mem hij hmem)

theorem foldRemove_mem_of_not_in {ids : List Nat} {l : Listener} : ∀ {s : Store},
    l ∈ storeListeners s → l.id ∉ ids →
    l ∈ storeListeners (ids.foldl (fun st j => (removeById st j).2) s) := by
  induction ids with
  | nil => exact fun h _ => h
  | cons j rest ih =>
    intro s hl hni
    simp only [List.foldl_cons]
    have hne : l.id ≠ j := fun hh => hni (hh ▸ List.mem_cons_self _ _)
    exact ih (removeById_mem_of_ne hl hne) fun hh => hni (List.mem_cons_of_mem _ hh)

theorem WF_emitStore {s : Store} (h : WF s) (event : String)
    (behavior : Nat → HandlerBehavior) (dur : Nat → ℚ) :
    WF (emitStore s event behavior dur) := by
  simp only [emitStore]
  exact WF_foldRemove (WF_foldStats h)

theorem emitStore_storeIds_sublist (s : Store) (event : String)
    (behavior : Nat → HandlerBehavior) (dur : Nat → ℚ) :
    (storeIds (emitStore s event behavior dur)).Sublist (storeIds s) := by
  simp only [emitStore]
  exact (foldRemove_storeIds_sublist _ _).trans (by rw [foldStats_storeIds])

theorem emitStore_not_mem {s : Store} {i : Nat} (h : i ∉ storeIds s)
    (event : String) (behavior : Nat → HandlerBehavior) (dur : Nat → ℚ) :
    i ∉ storeIds (emitStore s event behavior dur) :=
  fun hc => h ((emitStore_storeIds_sublist s event behavior dur).subset hc)

theorem WF_emitMany {s : Store} (h : WF s)
    (rest : List (String × (Nat → HandlerBehavior) × (Nat → ℚ))) :
    WF (emitMany s rest) := by
  induction rest generalizing s with
  | nil => exact h
  | cons x r ih =>
    obtain ⟨e, b, d⟩ := x
    exact ih (WF_emitStore h e b d)

theorem emitMany_not_mem {s : Store} {i : Nat} (h : i ∉ storeIds s)
    (rest : List (String × (Nat → HandlerBehavior) × (Nat → ℚ))) :
    i ∉ storeIds (emitMany s rest) := by
  induction rest generalizing s with
  | nil => exact h
  | cons x r ih =>
    obtain ⟨e, b, d⟩ := x
    exact ih (emitStore_not_mem h e b d)

/-! ## Reachability implies the invariant -/

theorem Reachable_WF {s : Store} (h : Reachable s) : WF s := by
  induction h with
  | init => decide
  | add pattern options now _ ih => exact WF_add ih pattern options now
  | remove pattern listenerId _ ih => exact WF_remove ih pattern listenerId
  | removeById listenerId _ ih => exact WF_removeById ih listenerId
  | removeAll event _ ih => exact WF_removeAll ih event
  | updateStats listenerId duration _ ih => exact WF_updateStats ih listenerId duration
  | markForRemoval listenerId _ ih => exact WF_markForRemoval ih listenerId
  | removeMarked _ ih => exact WF_removeMarked ih
  | emit event behavior dur _ ih => exact WF_emitStore ih event behavior dur

/-! ## `getMatching`, characterized -/

theorem foldrMatching_mem {event : String} {l : Listener}
    {m : List (String × List Listener)} :
    (l ∈ m.foldr (fun e acc => if matchesEvent e.1 event then e.2 ++ acc else acc) []) ↔
      ∃ p ls, (p, ls) ∈ m ∧ matchesEvent p event = true ∧ l ∈ ls := by
  induction m with
  | nil => simp
  | cons e rest ih =>
    by_cases hm : matchesEvent e.1 event = true
    · simp only [List.foldr_cons, hm, if_true, List.mem_append, ih]
      constructor
      · rintro (hl | ⟨p, ls, hmem, hme, hl⟩)
        · exact ⟨e.1, e.2, List.mem_cons_self _ _, hm, hl⟩
        · exact ⟨p, ls, List.mem_cons_of_mem _ hmem, hme, hl⟩
      · rintro ⟨p, ls, hmem, hme, hl⟩
        rcases List.mem_cons.mp hmem with heq | hmem
        · cases heq
          exact Or.inl hl
        · exact Or.inr ⟨p, ls, hmem, hme, hl⟩
    · have hm' : matchesEvent e.1 event = false := by simpa using hm
      simp only [List.foldr_cons, hm', Bool.false_eq_true, if_false, ih]
      constructor
      · rintro ⟨p, ls, hmem, hme, hl⟩
        exact ⟨p, ls, List.mem_cons_of_mem _ hmem, hme, hl⟩
      · rintro ⟨p, ls, hmem, hme, hl⟩
        rcases List.mem_cons.mp hmem with heq | hmem
        · cases heq
          rw [hme] at hm'
          simp at hm'
        · exact ⟨p, ls, hmem, hme, hl⟩

theorem getMatchingRaw_mem {s : Store} {event : String} {l : Listener} :
    l ∈ getMatchingRaw s event ↔
      (∃ ls, getA s.exactMatches event = some ls ∧ l ∈ ls) ∨
        (∃ p ls, (p, ls) ∈ s.wildcardPatterns ∧ matchesEvent p event = true ∧ l ∈ ls) := by
  unfold getMatchingRaw
  rw [List.mem_append]
  constructor
  · rintro (hl | hl)
    · left
      cases hget : getA s.exactMatches event with
      | none => rw [hget] at hl; simp at hl
      | some ls => rw [hget] at hl; exact ⟨ls, rfl, by simpa using hl⟩
    · right
      exact foldrMatching_mem.mp hl
  · rintro (⟨ls, hget, hl⟩ | h)
    · left
      rw [hget]
      simpa using hl
    · right
      exact foldrMatching_mem.mpr h

theorem getMatching_mem {s : Store} {event : String} {l : Listener} :
    l ∈ getMatching s event ↔ l ∈ getMatchingRaw s event := by
  unfold getMatching
  exact mem_sortByPriority

theorem getMatching_subset_storeListeners {s : Store} {event : String} {l : Listener}
    (h : l ∈ getMatching s event) : l ∈ storeListeners s := by
  rcases getMatchingRaw_mem.mp (getMatching_mem.mp h) with ⟨ls, hget, hl⟩ |
    ⟨p, ls, hmem, _, hl⟩
  · exact List.mem_append_left _
      (mem_mapListenersAll.mpr ⟨(event, ls), getA_mem hget, hl⟩)
  · exact List.mem_append_right _ (mem_mapListenersAll.mpr ⟨(p, ls), hmem, hl⟩)

/-! ## Further support lemmas for the claims -/

theorem toRemove_behaviorOk {listeners : List Listener}
    {behavior : Nat → HandlerBehavior} {j : Nat}
    (h : j ∈ (execute listeners behavior).listenersToRemove) :
    behaviorOk (behavior j) = true := by
  rw [execute_toRemove] at h
  obtain ⟨l, hl, hlj⟩ := List.mem_map.mp h
  have := (List.mem_filter.mp hl).2
  rw [Bool.and_eq_true] at this
  exact hlj ▸ this.1

theorem bucketEntry_subset_storeListeners {s : Store} {pat : String}
    {ls : List Listener} (hget : getA (getMapForPattern s pat) pat = some ls)
    {l : Listener} (hl : l ∈ ls) : l ∈ storeListeners s := by
  by_cases hw : hasWildcard pat = true
  · rw [getMapForPattern, if_pos hw] at hget
    exact List.mem_append_right _
      (mem_mapListenersAll.mpr ⟨(pat, ls), getA_mem hget, hl⟩)
  · rw [getMapForPattern, if_neg hw] at hget
    exact List.mem_append_left _
      (mem_mapListenersAll.mpr ⟨(pat, ls), getA_mem hget, hl⟩)

/-- Store-level multiset effect of `add`. -/
theorem add_storeListeners_perm (s : Store) (pat : String) (opts : SubscribeOptions)
    (now : Nat) :
    (storeListeners (add s pat opts now).2).Perm
      ({ id := s.nextId, priority := opts.priority.getD 0, once := opts.once.getD false,
         pattern := pat, addedAt := now, executionCount := 0,
         totalDuration := 0 } :: storeListeners s) := by
  by_cases hw : hasWildcard pat = true
  · simp only [add, getMapForPattern, setBucket, hw, if_true, storeListeners]
    have h := addBucket_perm s.wildcardPatterns pat
      { id := s.nextId, priority := opts.priority.getD 0, once := opts.once.getD false,
        pattern := pat, addedAt := now, executionCount := 0, totalDuration := 0 }
    refine (List.Perm.append_left _ h).trans ?_
    exact List.perm_middle.trans (by simp)
  · have hw' : hasWildcard pat = false := by simpa using hw
    simp only [add, getMapForPattern, setBucket, hw', Bool.false_eq_true, if_false,
      storeListeners]
    have h := addBucket_perm s.exactMatches pat
      { id := s.nextId, priority := opts.priority.getD 0, once := opts.once.getD false,
        pattern := pat, addedAt := now, executionCount := 0, totalDuration := 0 }
    exact (List.Perm.append_right _ h).trans (by simp)

/-- `remove(pat, i)` erases id `i` completely, provided every id-`i` listener
was registered under `pat`. -/
theorem remove_not_mem {s : Store} {pat : String} {i : Nat} (hwf : WF s)
    (hloc : ∀ l ∈ storeListeners s, l.id = i → l.pattern = pat) :
    i ∉ storeIds (remove s pat i).2 := by
  obtain ⟨hex, hwi, _, _⟩ := hwf
  intro hmem
  obtain ⟨l, hl, hli⟩ := List.mem_map.mp hmem
  by_cases hw : hasWildcard pat = true
  · rw [storeListeners] at hl
    simp only [remove, setBucket, getMapForPattern, hw, if_true] at hl
    rcases List.mem_append.mp hl with hl | hl
    · -- untouched exact bucket: an id-i listener there would be under `pat`,
      -- but `pat` is a wildcard pattern, contradiction
      obtain ⟨e, he, hle⟩ := mem_mapListenersAll.mp hl
      have hlp : l.pattern = pat := hloc l
        (List.mem_append_left _ (mem_mapListenersAll.mpr ⟨e, he, hle⟩)) hli
      have h1 : hasWildcard e.1 = false := (hex.1 e he).2.2
      have h2 : l.pattern = e.1 := (hex.1 e he).2.1 l hle
      rw [h2.symm, hlp] at h1
      rw [h1] at hw
      exact Bool.false_ne_true hw
    · have hloc' : ∀ x ∈ mapListenersAll s.wildcardPatterns, x.id = i → x.pattern = pat := by
        intro x hx hxi
        exact hloc x (List.mem_append_right _ hx) hxi
      exact removeBucket_no_id hwi hloc' l hl hli
  · have hw' : hasWildcard pat = false := by simpa using hw
    rw [storeListeners] at hl
    simp only [remove, setBucket, getMapForPattern, hw', Bool.false_eq_true,
      if_false] at hl
    rcases List.mem_append.mp hl with hl | hl
    · have hloc' : ∀ x ∈ mapListenersAll s.exactMatches, x.id = i → x.pattern = pat := by
        intro x hx hxi
        exact hloc x (List.mem_append_left _ hx) hxi
      exact removeBucket_no_id hex hloc' l hl hli
    · obtain ⟨e, he, hle⟩ := mem_mapListenersAll.mp hl
      have hlp : l.pattern = pat := hloc l
        (List.mem_append_right _ (mem_mapListenersAll.mpr ⟨e, he, hle⟩)) hli
      have h1 : hasWildcard e.1 = true := (hwi.1 e he).2.2
      have h2 : l.pattern = e.1 := (hwi.1 e he).2.1 l hle
      rw [h2.symm, hlp, hw'] at h1
      exact Bool.false_ne_true h1

theorem getA_eq_of_mem_nodup {α : Type} {m : List (String × α)} {k : String} {v : α}
    (hnd : (m.map Prod.fst).Nodup) (hmem : (k, v) ∈ m) : getA m k = some v := by
  induction m with
  | nil => simp at hmem
  | cons e rest ih =>
    obtain ⟨k', v'⟩ := e
    have hnd' : (k' :: rest.map Prod.fst).Nodup := hnd
    rcases List.mem_cons.mp hmem with heq | hmem
    · cases heq
      simp [getA]
    · have hk : k' ≠ k := by
        intro hh
        subst hh
        exact (List.nodup_cons.mp hnd').1 (List.mem_map_of_mem Prod.fst hmem)
      simp only [getA, if_neg hk]
      exact ih (List.nodup_cons.mp hnd').2 hmem

theorem collectAllListeners_eq {w : Bool} {m : List (String × List Listener)}
    (hw : bucketEntriesWF w m) :
    collectAllListeners m = (mapListenersAll m).map fun l => (l.pattern, l.id) := by
  induction m with
  | nil => rfl
  | cons e rest ih =>
    have hhead := hw e (List.mem_cons_self _ _)
    have hrest : bucketEntriesWF w rest := fun x hx => hw x (List.mem_cons_of_mem _ hx)
    simp only [collectAllListeners, List.foldr_cons, mapListenersAll_cons,
      List.map_append]
    have h1 : (e.2.map fun l => (e.1, l.id)) = e.2.map fun l => (l.pattern, l.id) :=
      List.map_congr_left fun l hl => by rw [hhead.2.1 l hl]
    rw [h1]
    have h2 : collectAllListeners rest =
        (mapListenersAll rest).map fun l => (l.pattern, l.id) := ih hrest
    rw [← h2]
    rfl

theorem mem_setA {α : Type} {m : List (String × α)} {k : String} {v : α}
    {x : String × α} (h : x ∈ setA m k v) : x ∈ m ∨ x = (k, v) := by
  induction m with
  | nil =>
    simp only [setA, List.mem_singleton] at h
    exact Or.inr h
  | cons e rest ih =>
    obtain ⟨k', v'⟩ := e
    by_cases hk : k' = k
    · subst hk
      rw [setA, if_pos rfl] at h
      rcases List.mem_cons.mp h with heq | h
      · exact Or.inr heq
      · exact Or.inl (List.mem_cons_of_mem _ h)
    · rw [setA, if_neg hk] at h
      rcases List.mem_cons.mp h with heq | h
      · exact Or.inl (List.mem_cons.mpr (Or.inl heq))
      · rcases ih h with h | h
        · exact Or.inl (List.mem_cons_of_mem _ h)
        · exact Or.inr h

theorem foldlSet_mem {x : String × List ListenerInfo}
    {cond : String × List Listener → Bool} :
    ∀ {m : List (String × List Listener)} {r : List (String × List ListenerInfo)},
      x ∈ m.foldl (fun r e => if cond e then setA r e.1 (e.2.map toListenerInfo) else r) r →
      x ∈ r ∨ ∃ ls, (x.1, ls) ∈ m ∧ x.2 = ls.map toListenerInfo := by
  intro m
  induction m with
  | nil => exact fun h => Or.inl h
  | cons e rest ih =>
    intro r h
    rcases ih h with h2 | ⟨ls, hmem, hx⟩
    · by_cases hc : cond e = true
      · simp only [hc, if_true] at h2
        rcases mem_setA h2 with h2 | h2
        · exact Or.inl h2
        · right
          refine ⟨e.2, ?_, by rw [h2]⟩
          have hx1 : x.1 = e.1 := by rw [h2]
          rw [hx1]
          exact List.mem_cons.mpr (Or.inl rfl)
      · have hc' : cond e = false := by simpa using hc
        simp only [hc', Bool.false_eq_true, if_false] at h2
        exact Or.inl h2
    · exact Or.inr ⟨ls, List.mem_cons_of_mem _ hmem, hx⟩

theorem addMatchingToResult_mem {m : List (String × List Listener)}
    {event : Option String} {x : String × List ListenerInfo}
    {r : List (String × List ListenerInfo)} (h : x ∈ addMatchingToResult m r event) :
    x ∈ r ∨ ∃ ls, (x.1, ls) ∈ m ∧ x.2 = ls.map toListenerInfo :=
  foldlSet_mem h

theorem getAll_mem {s : Store} {event : Option String} {x : String × List ListenerInfo}
    (h : x ∈ getAll s event) :
    ∃ ls, ((x.1, ls) ∈ s.exactMatches ∨ (x.1, ls) ∈ s.wildcardPatterns) ∧
      x.2 = ls.map toListenerInfo := by
  unfold getAll at h
  rcases addMatchingToResult_mem h with h | ⟨ls, hmem, hx⟩
  · rcases addMatchingToResult_mem h with h | ⟨ls, hmem, hx⟩
    · simp at h
    · exact ⟨ls, Or.inl hmem, hx⟩
  · exact ⟨ls, Or.inr hmem, hx⟩

/-! # The claims -/

/-- C6 counterexample: the claim's general rule says the wildcard token
matches "zero or more arbitrary characters", so `'a*'` should match the
event name `"a\nb"` (the `*` consuming `"\nb"`); the spec-side matcher
`specGlobMatch`, modelled from that wording, indeed accepts it.  But the
code compiles `'*'` to the regex `.*` without the `s` flag, and an
ECMAScript `.` never matches a line terminator, so `matches('a*', "a\nb")`
is `false`. -/
theorem c6_counterexample :
    matchesEvent "a*" "a\nb" = false ∧
      specGlobMatch "a*".data "a\nb".data = true := by decide

/-- C6 (amended): the pattern matcher satisfies: `matches('*', e)` is true
for every `e`; `matches(p, p)` is true for every `p`; otherwise `matches`
holds exactly when the event decomposes against the pattern with the
wildcard token matching zero or more characters, none of which is a line
terminator (LF, CR, U+2028, U+2029 — the characters an ECMAScript regex
`.` refuses), and every other character matching only itself literally
(regex metacharacters are escaped); in particular
`matches('user:*','user:login') = true`, `matches('user:*','admin:login') =
false`, `matches('a.b','a.b') = true` and `matches('a.b','aXb') = false`. -/
theorem c6_pattern_matcher :
    (∀ e : String, matchesEvent "*" e = true) ∧
      (∀ p : String, matchesEvent p p = true) ∧
      (∀ p e : String, matchesEvent p e = true ↔
        (p = "*" ∨ p = e ∨ GlobMatches p.data e.data)) ∧
      matchesEvent "user:*" "user:login" = true ∧
      matchesEvent "user:*" "admin:login" = false ∧
      matchesEvent "a.b" "a.b" = true ∧
      matchesEvent "a.b" "aXb" = false := by
  refine ⟨?_, ?_, ?_, by decide, by decide, by decide, by decide⟩
  · intro e
    simp [matchesEvent]
  · intro p
    simp [matchesEvent]
  · intro p e
    unfold matchesEvent
    simp only [Bool.or_eq_true, beq_iff_eq, globMatch_iff, or_assoc]

/-- C6 witness: the amended characterization applied at a concrete input;
`matches("*", "zz")` is true through the first disjunct. -/
theorem c6_witness : matchesEvent "*" "zz" = true :=
  (c6_pattern_matcher.2.2.1 "*" "zz").mpr (Or.inl rfl)

/-- C2 (confirmed): for every listener list and handler-outcome assignment,
`execute` (1) invokes every listener in order — a failure never aborts the
remaining loop; (2) returns as `listenersToRemove` exactly the ids of the
successful `once` listeners; (3) never includes the id of a listener whose
handler failed (synchronous throw or awaited rejection), even a `once`
one; and (4) through the `emit` flow, a listener whose handler failed
remains registered in the store.  `execute` itself is a total function
into a plain result — the `try`/`catch` and rejection callback swallow
every failure, so `execute`, and hence `emit`, never rejects because of a
handler failure. -/
theorem c2_executor_isolation :
    ∀ (listeners : List Listener) (behavior : Nat → HandlerBehavior),
      (execute listeners behavior).invoked = (listeners.map fun l => l.id) ∧
      ((execute listeners behavior).listenersToRemove =
        ((listeners.filter fun l => behaviorOk (behavior l.id) && l.once).map
          fun l => l.id)) ∧
      (∀ l ∈ listeners, behaviorOk (behavior l.id) = false →
        l.id ∉ (execute listeners behavior).listenersToRemove) ∧
      (∀ (s : Store) (event : String) (dur : Nat → ℚ) (l : Listener),
        l ∈ storeListeners s → behaviorOk (behavior l.id) = false →
        l ∈ storeListeners (emitStore s event behavior dur)) := by
  intro listeners behavior
  refine ⟨execute_invoked _ _, execute_toRemove _ _, ?_, ?_⟩
  · intro l _ hfail hmem
    have h := toRemove_behaviorOk hmem
    rw [hfail] at h
    exact Bool.false_ne_true h
  · intro s event dur l hl hfail
    simp only [emitStore]
    refine foldRemove_mem_of_not_in (foldStats_mem_of_ne hfail hl) ?_
    intro hmem
    have h := toRemove_behaviorOk hmem
    rw [hfail] at h
    exact Bool.false_ne_true h

/-- Store for the C2 witness: one `once` listener (id 0) on `"x"`. -/
def c2Store : Store := (add store0 "x" { once := some true } 0).2

/-- The listener the C2 witness tracks. -/
def c2L : Listener :=
  { id := 0, priority := 0, once := true, pattern := "x", addedAt := 0,
    executionCount := 0, totalDuration := 0 }

/-- C2 witness: a `once` listener whose handler throws stays registered
after the emission. -/
theorem c2_witness :
    c2L ∈ storeListeners c2Store ∧
      behaviorOk ((fun _ => HandlerBehavior.syncThrow) c2L.id) = false ∧
      c2L ∈ storeListeners
        (emitStore c2Store "x" (fun _ => HandlerBehavior.syncThrow) fun _ => 0) :=
  ⟨by decide, by decide,
    (c2_executor_isolation (getMatching c2Store "x") fun _ => HandlerBehavior.syncThrow).2.2.2
      c2Store "x" (fun _ => 0) c2L (by decide) (by decide)⟩

/-- C3 (confirmed): a `once` listener whose handler succeeds fires on the
first matching emission (it is invoked and flagged for removal by
`execute`), is removed from the store by the `emit` flow, and is absent
from the store — in particular from every later `getMatching` result for
the same event name — no matter what other emissions (any events, any
handler outcomes) are interleaved afterwards. -/
theorem c3_once_semantics :
    ∀ (s : Store) (event : String) (behavior : Nat → HandlerBehavior)
      (dur : Nat → ℚ) (l : Listener), WF s → l ∈ getMatching s event →
      l.once = true → behaviorOk (behavior l.id) = true →
      l.id ∈ (execute (getMatching s event) behavior).invoked ∧
      l.id ∈ (execute (getMatching s event) behavior).listenersToRemove ∧
      l.id ∉ storeIds (emitStore s event behavior dur) ∧
      (∀ rest, l.id ∉ storeIds (emitMany (emitStore s event behavior dur) rest)) ∧
      (∀ rest l', l' ∈ getMatching (emitMany (emitStore s event behavior dur) rest) event →
        l'.id ≠ l.id) := by
  intro s event behavior dur l hwf hmem honce hok
  have h1 : l.id ∈ (execute (getMatching s event) behavior).invoked := by
    rw [execute_invoked]
    exact List.mem_map_of_mem _ hmem
  have h2 : l.id ∈ (execute (getMatching s event) behavior).listenersToRemove := by
    rw [execute_toRemove]
    refine List.mem_map_of_mem _ (List.mem_filter.mpr ⟨hmem, ?_⟩)
    rw [hok, honce]
    rfl
  have h3 : l.id ∉ storeIds (emitStore s event behavior dur) := by
    simp only [emitStore]
    exact foldRemove_not_mem (WF_foldStats hwf) h2
  refine ⟨h1, h2, h3, fun rest => emitMany_not_mem h3 rest, ?_⟩
  intro rest l' hl' heq
  have hmem' : l'.id ∈ storeIds (emitMany (emitStore s event behavior dur) rest) :=
    List.mem_map_of_mem _ (getMatching_subset_storeListeners hl')
  rw [heq] at hmem'
  exact emitMany_not_mem h3 rest hmem'

/-- Store for the C3 witness: one `once` listener (id 0) on `"e"`. -/
def c3Store : Store := (add store0 "e" { once := some true } 0).2

/-- The listener the C3 witness tracks. -/
def c3L : Listener :=
  { id := 0, priority := 0, once := true, pattern := "e", addedAt := 0,
    executionCount := 0, totalDuration := 0 }

/-- C3 witness: the successful `once` listener is flagged for removal and
its id is gone from the store after the emission. -/
theorem c3_witness :
    c3L.id ∈ (execute (getMatching c3Store "e") fun _ => HandlerBehavior.syncOk).listenersToRemove ∧
      c3L.id ∉ storeIds (emitStore c3Store "e" (fun _ => HandlerBehavior.syncOk) fun _ => 0) :=
  ⟨(c3_once_semantics c3Store "e" (fun _ => HandlerBehavior.syncOk) (fun _ => 0) c3L
      (by decide) (by decide) (by decide) (by decide)).2.1,
    (c3_once_semantics c3Store "e" (fun _ => HandlerBehavior.syncOk) (fun _ => 0) c3L
      (by decide) (by decide) (by decide) (by decide)).2.2.1⟩

/-- C7 (confirmed): in every store state reachable through the public API
from the fresh store, every key of the exact bucket and of the wildcard
bucket is bound to a non-empty listener list, every stored listener's
`pattern` field equals the key it is stored under, and a key lives in the
wildcard bucket iff `hasWildcard` holds of it (exact-bucket keys have
`hasWildcard = false`, wildcard-bucket keys have `hasWildcard = true`), so
each pattern lives in exactly one bucket. -/
theorem c7_bucket_invariants :
    ∀ s : Store, Reachable s →
      (∀ e ∈ s.exactMatches, e.2 ≠ [] ∧ (∀ l ∈ e.2, l.pattern = e.1) ∧
        hasWildcard e.1 = false) ∧
      (∀ e ∈ s.wildcardPatterns, e.2 ≠ [] ∧ (∀ l ∈ e.2, l.pattern = e.1) ∧
        hasWildcard e.1 = true) :=
  fun _ h => ⟨(Reachable_WF h).1.1, (Reachable_WF h).2.1.1⟩

/-- Store for the C7 witness: an exact and a wildcard registration. -/
def c7Store : Store := (add (add store0 "a" {} 0).2 "b*" {} 1).2

/-- C7 witness: the invariant at a concrete reachable store. -/
theorem c7_witness :
    (∀ e ∈ c7Store.exactMatches, e.2 ≠ [] ∧ (∀ l ∈ e.2, l.pattern = e.1) ∧
      hasWildcard e.1 = false) ∧
    (∀ e ∈ c7Store.wildcardPatterns, e.2 ≠ [] ∧ (∀ l ∈ e.2, l.pattern = e.1) ∧
      hasWildcard e.1 = true) :=
  c7_bucket_invariants c7Store
    (Reachable.add "b*" {} 1 (Reachable.add "a" {} 0 Reachable.init))

/-- C8 (confirmed): on a well-formed store, `remove` with a pattern/id pair
not present in the store returns `false` and leaves the store exactly
unchanged, and `removeById` with an id not present returns the not-found
signal (`undefined`, embedded as `none`) and leaves the store unchanged.
Both operations are total functions of the embedding — no input makes
them throw. -/
theorem c8_notfound_removals :
    ∀ (s : Store) (pat : String) (i : Nat), WF s →
      ((∀ l ∈ storeListeners s, l.pattern = pat → l.id ≠ i) →
        remove s pat i = (false, s)) ∧
      (i ∉ storeIds s → removeById s i = (none, s)) := by
  intro s pat i hwf
  constructor
  · intro hno
    refine remove_noop (WF_bucket_self hwf pat) ?_
    intro l hl
    cases hget : getA (getMapForPattern s pat) pat with
    | none =>
      rw [hget] at hl
      simp at hl
    | some ls =>
      rw [hget] at hl
      simp only [Option.getD_some] at hl
      have hmem := bucketEntry_subset_storeListeners hget hl
      have hpat : l.pattern = pat :=
        ((WF_bucket_self hwf pat).1 (pat, ls) (getA_mem hget)).2.1 l hl
      exact hno l hmem hpat
  · exact removeById_noop

/-- Store for the C8 witness: one listener (id 0) on `"a"`. -/
def c8Store : Store := (add store0 "a" {} 0).2

/-- C8 witness: removing an id that was never issued is a no-op on a
concrete store, by both removal operations. -/
theorem c8_witness :
    remove c8Store "a" 5 = (false, c8Store) ∧
      removeById c8Store 5 = (none, c8Store) :=
  ⟨(c8_notfound_removals c8Store "a" 5 (by decide)).1 (by decide),
    (c8_notfound_removals c8Store "a" 5 (by decide)).2 (by decide)⟩

/-- C9 (confirmed): the unsubscribe closure returned by `subscribe` calls
`remove(pattern, listenerId)` with the captured pair.  On a well-formed
store, the first call removes the listener (its id is gone from the
store), and the second call — hence every further call, the state being a
fixed point — returns `false` and leaves the store exactly as the first
call left it.  `remove` is total, so no call throws. -/
theorem c9_unsubscribe_idempotent :
    ∀ (s : Store) (pat : String) (opts : SubscribeOptions) (now : Nat), WF s →
      (add s pat opts now).1 ∉
        storeIds (remove (add s pat opts now).2 pat (add s pat opts now).1).2 ∧
      remove (remove (add s pat opts now).2 pat (add s pat opts now).1).2 pat
          (add s pat opts now).1 =
        (false, (remove (add s pat opts now).2 pat (add s pat opts now).1).2) := by
  intro s pat opts now hwf
  have hwf1 : WF (add s pat opts now).2 := WF_add hwf pat opts now
  have hloc : ∀ l ∈ storeListeners (add s pat opts now).2,
      l.id = (add s pat opts now).1 → l.pattern = pat := by
    intro l hl hli
    have hperm := add_storeListeners_perm s pat opts now
    rcases List.mem_cons.mp (hperm.subset hl) with heq | hl'
    · rw [heq]
    · exfalso
      have hm : l.id ∈ storeIds s := List.mem_map_of_mem _ hl'
      have hb := hwf.2.2.2 _ hm
      rw [hli] at hb
      exact lt_irrefl _ hb
  have h1 : (add s pat opts now).1 ∉
      storeIds (remove (add s pat opts now).2 pat (add s pat opts now).1).2 :=
    remove_not_mem hwf1 hloc
  have hwf2 : WF (remove (add s pat opts now).2 pat (add s pat opts now).1).2 :=
    WF_remove hwf1 pat (add s pat opts now).1
  refine ⟨h1, ?_⟩
  refine remove_noop (WF_bucket_self hwf2 pat) ?_
  intro l hl hli
  cases hget : getA
      (getMapForPattern (remove (add s pat opts now).2 pat (add s pat opts now).1).2 pat)
      pat with
  | none =>
    rw [hget] at hl
    simp at hl
  | some ls =>
    rw [hget] at hl
    simp only [Option.getD_some] at hl
    have hmem := bucketEntry_subset_storeListeners hget hl
    have hm2 : l.id ∈
        storeIds (remove (add s pat opts now).2 pat (add s pat opts now).1).2 :=
      List.mem_map_of_mem _ hmem
    rw [hli] at hm2
    exact h1 hm2

/-- C9 witness: subscribe on the empty store, then unsubscribe twice. -/
theorem c9_witness :
    (add store0 "a" {} 0).1 ∉
      storeIds (remove (add store0 "a" {} 0).2 "a" (add store0 "a" {} 0).1).2 ∧
    remove (remove (add store0 "a" {} 0).2 "a" (add store0 "a" {} 0).1).2 "a"
        (add store0 "a" {} 0).1 =
      (false, (remove (add store0 "a" {} 0).2 "a" (add store0 "a" {} 0).1).2) :=
  c9_unsubscribe_idempotent store0 "a" {} 0 (by decide)

/-- C10 (confirmed): every listener summary produced by `getAll` is the
public projection of a stored listener, and its `avgDuration` uses the
guarded division: it is `0` when the listener's `executionCount` is `0`
(no division by zero is ever performed), and `totalDuration /
executionCount` otherwise. -/
theorem c10_avgDuration_guarded :
    ∀ (s : Store) (event : Option String) (x : String × List ListenerInfo)
      (info : ListenerInfo), x ∈ getAll s event → info ∈ x.2 →
      ∃ l, l ∈ storeListeners s ∧ info = toListenerInfo l ∧
        (l.executionCount = 0 → info.avgDuration = 0) ∧
        (0 < l.executionCount →
          info.avgDuration = l.totalDuration / (l.executionCount : ℚ)) := by
  intro s event x info hx hinfo
  obtain ⟨ls, hmem, hx2⟩ := getAll_mem hx
  rw [hx2] at hinfo
  obtain ⟨l, hl, hli⟩ := List.mem_map.mp hinfo
  refine ⟨l, ?_, hli.symm, ?_, ?_⟩
  · rcases hmem with hmem | hmem
    · exact List.mem_append_left _ (mem_mapListenersAll.mpr ⟨(x.1, ls), hmem, hl⟩)
    · exact List.mem_append_right _ (mem_mapListenersAll.mpr ⟨(x.1, ls), hmem, hl⟩)
  · intro hzero
    rw [← hli]
    simp [toListenerInfo, hzero]
  · intro hpos
    rw [← hli]
    simp only [toListenerInfo]
    rw [if_pos hpos]

/-- Store for the C10 witness: one freshly registered listener (its
`executionCount` is 0, so its summary exercises the guard). -/
def c10Store : Store := (add store0 "a" {} 0).2

/-- The stored listener of the C10 witness. -/
def c10L : Listener :=
  { id := 0, priority := 0, once := false, pattern := "a", addedAt := 0,
    executionCount := 0, totalDuration := 0 }

/-- C10 witness: the concrete summary satisfies the guarded division. -/
theorem c10_witness :
    ∃ l, l ∈ storeListeners c10Store ∧ toListenerInfo c10L = toListenerInfo l ∧
      (l.executionCount = 0 → (toListenerInfo c10L).avgDuration = 0) ∧
      (0 < l.executionCount →
        (toListenerInfo c10L).avgDuration = l.totalDuration / (l.executionCount : ℚ)) :=
  c10_avgDuration_guarded c10Store none ("a", [toListenerInfo c10L])
    (toListenerInfo c10L) (by decide) (by decide)

/-- Counterexample store for C1: the wildcard listener (id 0) under `"a*"`
is registered first, the exact listener (id 1) under `"a"` second, both at
timestamp 0 (same `Date.now()` millisecond) and default priority 0. -/
def c1CounterStore : Store := (add (add store0 "a*" {} 0).2 "a" {} 0).2

/-- C1 counterexample: the claim requires equal-priority listeners in
ascending registration order, i.e. ids `[0, 1]`.  But `addedAt` comes from
millisecond-resolution `Date.now()`, so both listeners carry timestamp 0;
the comparator returns 0 and the stable sort keeps the merged order, which
puts the exact bucket first: `getMatching` returns ids `[1, 0]`, violating
registration order. -/
theorem c1_counterexample :
    ((getMatching c1CounterStore "a").map fun l => l.id) = [1, 0] ∧
      (∀ l ∈ getMatching c1CounterStore "a", l.priority = 0) := by decide

/-- C1 (amended): for every store state and event name, `getMatching`
returns exactly the exact-bucket listeners stored under the event name
together with every wildcard-bucket listener whose pattern matches it,
sorted by strictly descending priority and, within equal priority, by
ascending `addedAt` timestamp.  When the equal-priority matched listeners
carry pairwise distinct timestamps consistent with registration order
(ids increase with registration), the result is in ascending registration
order; only listeners that tie on both priority and timestamp can deviate
from registration order (see the counterexample). -/
theorem c1_getMatching_order :
    ∀ (s : Store) (event : String),
      (getMatching s event).Perm (getMatchingRaw s event) ∧
      (∀ l : Listener, l ∈ getMatching s event ↔
        (∃ ls, getA s.exactMatches event = some ls ∧ l ∈ ls) ∨
          (∃ p ls, (p, ls) ∈ s.wildcardPatterns ∧ matchesEvent p event = true ∧
            l ∈ ls)) ∧
      ((getMatching s event).Pairwise fun a b =>
        b.priority < a.priority ∨ (a.priority = b.priority ∧ a.addedAt ≤ b.addedAt)) ∧
      ((((getMatchingRaw s event).map fun l => l.id).Nodup) →
        (∀ l₁ ∈ getMatchingRaw s event, ∀ l₂ ∈ getMatchingRaw s event,
          l₁.priority = l₂.priority → (l₁.addedAt < l₂.addedAt ↔ l₁.id < l₂.id)) →
        (∀ l₁ ∈ getMatchingRaw s event, ∀ l₂ ∈ getMatchingRaw s event,
          l₁.id ≠ l₂.id → l₁.priority = l₂.priority → l₁.addedAt ≠ l₂.addedAt) →
        (getMatching s event).Pairwise fun a b =>
          b.priority < a.priority ∨ (a.priority = b.priority ∧ a.id < b.id)) := by
  intro s event
  have hperm : (getMatching s event).Perm (getMatchingRaw s event) :=
    sortByPriority_perm _
  refine ⟨hperm, ?_, ?_, ?_⟩
  · intro l
    rw [getMatching_mem]
    exact getMatchingRaw_mem
  · exact (sortByPriority_sorted _).imp fun hab => (listenerLE_eq_true_iff _ _).mp hab
  · intro hnd hcons hdist
    have hbase := sortByPriority_sorted (getMatchingRaw s event)
    have hnodup_out : ((getMatching s event).map fun l => l.id).Nodup :=
      ((hperm.map fun l => l.id).nodup_iff).mpr hnd
    have hpw_ne : (getMatching s event).Pairwise fun a b => a.id ≠ b.id :=
      List.pairwise_map.mp hnodup_out
    refine (hbase.and hpw_ne).imp_of_mem ?_
    intro a b ha hb hab
    obtain ⟨hle, hne⟩ := hab
    have ha' : a ∈ getMatchingRaw s event := getMatching_mem.mp ha
    have hb' : b ∈ getMatchingRaw s event := getMatching_mem.mp hb
    rcases (listenerLE_eq_true_iff a b).mp hle with h | ⟨hpr, hadd⟩
    · exact Or.inl h
    · refine Or.inr ⟨hpr, ?_⟩
      have hne' : a.addedAt ≠ b.addedAt := hdist a ha' b hb' hne hpr
      exact (hcons a ha' b hb' hpr).mp (lt_of_le_of_ne hadd hne')

/-- Witness store for C1: two equal-priority listeners on `"a"` with
strictly increasing timestamps. -/
def c1WitnessStore : Store := (add (add store0 "a" {} 0).2 "a" {} 1).2

/-- C1 witness: with distinct timestamps the amended order is registration
order. -/
theorem c1_witness :
    ((getMatching c1WitnessStore "a").map fun l => l.id) = [0, 1] ∧
      (getMatching c1WitnessStore "a").Pairwise
        (fun a b => b.priority < a.priority ∨ (a.priority = b.priority ∧ a.id < b.id)) :=
  ⟨by decide,
    (c1_getMatching_order c1WitnessStore "a").2.2.2 (by decide) (by decide) (by decide)⟩

/-- Counterexample store for C4: one listener (id 0) registered under the
wildcard pattern `"a*"`. -/
def c4Store : Store := (add store0 "a*" {} 0).2

/-- C4 counterexample: `removeAll("a*")` reports nothing — the exact bucket
has no key `"a*"` — yet it deletes the wildcard bucket's `"a*"` entry, so
listener 0 is removed from the store without being reported. -/
theorem c4_counterexample :
    (removeAll c4Store (some "a*")).1 = [] ∧ storeIds c4Store = [0] ∧
      storeIds (removeAll c4Store (some "a*")).2 = [] := by decide

/-- Every reported id of a `removeAll(ev)` call is absent from the
resulting store. -/
theorem removeAll_reported_not_mem {s : Store} {ev : String} (hwf : WF s) {j : Nat}
    (hj : j ∈ ((getA s.exactMatches ev).getD []).map fun l => l.id) :
    j ∉ storeIds (removeAll s (some ev)).2 := by
  cases hget : getA s.exactMatches ev with
  | none =>
    rw [hget] at hj
    simp at hj
  | some ls =>
    rw [hget] at hj
    simp only [Option.getD_some] at hj
    obtain ⟨m₁, m₂, hm, hnot, _⟩ := getA_some_decomp hget
    have hnd := hwf.2.2.1
    rw [storeIds_eq] at hnd
    have hexact : mapIds s.exactMatches =
        mapIds m₁ ++ ((ls.map fun l => l.id) ++ mapIds m₂) := by
      rw [hm]
      simp [mapIds, mapListenersAll_append, mapListenersAll_cons, List.map_append]
    rw [hexact] at hnd
    have h1 := List.disjoint_of_nodup_append hnd
    have h2 := (List.nodup_append.mp hnd).1
    have h3 := List.disjoint_of_nodup_append h2
    have h4 := (List.nodup_append.mp h2).2.1
    have h5 := List.disjoint_of_nodup_append h4
    have hjA : j ∉ mapIds m₁ := fun hA =>
      h3 hA (List.mem_append_left _ hj)
    have hjB : j ∉ mapIds m₂ := fun hB => h5 hj hB
    have hjW : j ∉ mapIds s.wildcardPatterns := fun hW =>
      h1 (List.mem_append_right _ (List.mem_append_left _ hj)) hW
    have hdel : delA s.exactMatches ev = m₁ ++ delA m₂ ev := by
      rw [hm]
      unfold delA
      rw [List.filter_append]
      congr 1
      · exact List.filter_eq_self.mpr fun e he => by simpa using hnot e he
      · simp [List.filter_cons]
    intro hmem
    rw [storeIds_eq] at hmem
    rcases List.mem_append.mp hmem with hmem | hmem
    · have hmem' : j ∈ mapIds (delA s.exactMatches ev) := hmem
      rw [hdel] at hmem'
      have heq : mapIds (m₁ ++ delA m₂ ev) = mapIds m₁ ++ mapIds (delA m₂ ev) := by
        simp [mapIds, mapListenersAll_append, List.map_append]
      rw [heq] at hmem'
      rcases List.mem_append.mp hmem' with hmem' | hmem'
      · exact hjA hmem'
      · exact hjB (((mapListenersAll_filter_sublist _ m₂).map fun l => l.id).subset hmem')
    · have hmem' : j ∈ mapIds (delA s.wildcardPatterns ev) := hmem
      exact hjW (((mapListenersAll_filter_sublist _ s.wildcardPatterns).map
        fun l => l.id).subset hmem')

/-- C4 (amended): with no argument, `removeAll` clears every bucket and the
returned pair list reports exactly the removed listeners (every stored
listener is reported under its own pattern, and nothing is left in the
store).  With an event name `ev`, the returned list reports exactly the
exact-bucket listeners under `ev`: every reported pair carries pattern
`ev`, was in the store and is no longer in the store; and if `ev` contains
no wildcard token the report is complete — every listener the call removed
is reported.  (When `ev` itself contains a wildcard token, the call
additionally deletes the wildcard bucket's entry keyed exactly `ev`
without reporting those listeners — the counterexample.) -/
theorem c4_removeAll_reporting :
    (∀ s : Store, WF s →
      storeListeners (removeAll s none).2 = [] ∧
      (removeAll s none).1 = ((storeListeners s).map fun l => (l.pattern, l.id))) ∧
    (∀ (s : Store) (ev : String), WF s →
      (∀ pr ∈ (removeAll s (some ev)).1, pr.1 = ev ∧ pr.2 ∈ storeIds s ∧
        pr.2 ∉ storeIds (removeAll s (some ev)).2) ∧
      (hasWildcard ev = false →
        ∀ l ∈ storeListeners s, l ∉ storeListeners (removeAll s (some ev)).2 →
          (ev, l.id) ∈ (removeAll s (some ev)).1)) := by
  constructor
  · intro s hwf
    constructor
    · rfl
    · show collectAllListeners s.exactMatches ++ collectAllListeners s.wildcardPatterns = _
      rw [collectAllListeners_eq hwf.1.1, collectAllListeners_eq hwf.2.1.1,
        storeListeners, List.map_append]
  · intro s ev hwf
    constructor
    · intro pr hpr
      cases hget : getA s.exactMatches ev with
      | none =>
        have hpr' : pr ∈ ((getA s.exactMatches ev).getD []).map
            fun l => ((ev : String), l.id) := hpr
        rw [hget] at hpr'
        simp at hpr'
      | some ls =>
        have hpr' : pr ∈ ((getA s.exactMatches ev).getD []).map
            fun l => ((ev : String), l.id) := hpr
        rw [hget] at hpr'
        simp only [Option.getD_some] at hpr'
        obtain ⟨l, hl, hpreq⟩ := List.mem_map.mp hpr'
        refine ⟨by rw [← hpreq], ?_, ?_⟩
        · have : pr.2 = l.id := by rw [← hpreq]
          rw [this]
          exact List.mem_map_of_mem _ (List.mem_append_left _
            (mem_mapListenersAll.mpr ⟨(ev, ls), getA_mem hget, hl⟩))
        · have : pr.2 = l.id := by rw [← hpreq]
          rw [this]
          refine removeAll_reported_not_mem hwf ?_
          rw [hget]
          exact List.mem_map_of_mem _ hl
    · intro hnw l hl hgone
      rw [storeListeners] at hl
      rcases List.mem_append.mp hl with hl | hl
      · obtain ⟨e, he, hle⟩ := mem_mapListenersAll.mp hl
        by_cases hk : e.1 = ev
        · have hgete : getA s.exactMatches ev = some e.2 := by
            rw [← hk]
            exact getA_eq_of_mem_nodup hwf.1.2 he
          show (ev, l.id) ∈ ((getA s.exactMatches ev).getD []).map
            fun l => ((ev : String), l.id)
          rw [hgete]
          simp only [Option.getD_some]
          exact List.mem_map_of_mem _ hle
        · exfalso
          refine hgone ?_
          have he' : e ∈ delA s.exactMatches ev :=
            List.mem_filter.mpr ⟨he, by simpa using hk⟩
          exact List.mem_append_left _ (mem_mapListenersAll.mpr ⟨e, he', hle⟩)
      · exfalso
        obtain ⟨e, he, hle⟩ := mem_mapListenersAll.mp hl
        have hk : e.1 ≠ ev := by
          intro hh
          have hb := (hwf.2.1.1 e he).2.2
          rw [hh, hnw] at hb
          exact Bool.false_ne_true hb
        refine hgone ?_
        have he' : e ∈ delA s.wildcardPatterns ev :=
          List.mem_filter.mpr ⟨he, by simpa using hk⟩
        exact List.mem_append_right _ (mem_mapListenersAll.mpr ⟨e, he', hle⟩)

/-- Witness store for C4: one listener (id 0) under the literal `"a"`. -/
def c4WitnessStore : Store := (add store0 "a" {} 0).2

/-- C4 witness: both amended branches at a concrete store. -/
theorem c4_witness :
    ((removeAll c4WitnessStore none).1 =
      ((storeListeners c4WitnessStore).map fun l => (l.pattern, l.id))) ∧
      (("a", 0).1 = "a" ∧ ("a", 0).2 ∈ storeIds c4WitnessStore ∧
        ("a", 0).2 ∉ storeIds (removeAll c4WitnessStore (some "a")).2) :=
  ⟨(c4_removeAll_reporting.1 c4WitnessStore (by decide)).2,
    (c4_removeAll_reporting.2 c4WitnessStore "a" (by decide)).1 ("a", 0) (by decide)⟩

/-- C5 (confirmed): `removeAll(ev)` removes precisely the listeners whose
registration pattern is textually equal to `ev` — a listener survives iff
it was in the store and its pattern differs from `ev` — and a listener
registered under a wildcard pattern that matches `ev` without being
textually equal to it stays registered and still appears in later
`getMatching(ev)` results. -/
theorem c5_removeAll_textual :
    ∀ (s : Store) (ev : String), WF s →
      (∀ l : Listener, l ∈ storeListeners (removeAll s (some ev)).2 ↔
        l ∈ storeListeners s ∧ l.pattern ≠ ev) ∧
      (∀ l ∈ storeListeners s, l.pattern ≠ ev → hasWildcard l.pattern = true →
        matchesEvent l.pattern ev = true →
        l ∈ getMatching (removeAll s (some ev)).2 ev) := by
  intro s ev hwf
  constructor
  · intro l
    constructor
    · intro hl
      rcases List.mem_append.mp hl with hl | hl
      · obtain ⟨e, he, hle⟩ := mem_mapListenersAll.mp hl
        obtain ⟨hem, hek⟩ := delA_mem he
        have hpat : l.pattern = e.1 := (hwf.1.1 e hem).2.1 l hle
        exact ⟨List.mem_append_left _ (mem_mapListenersAll.mpr ⟨e, hem, hle⟩),
          by rw [hpat]; exact hek⟩
      · obtain ⟨e, he, hle⟩ := mem_mapListenersAll.mp hl
        obtain ⟨hem, hek⟩ := delA_mem he
        have hpat : l.pattern = e.1 := (hwf.2.1.1 e hem).2.1 l hle
        exact ⟨List.mem_append_right _ (mem_mapListenersAll.mpr ⟨e, hem, hle⟩),
          by rw [hpat]; exact hek⟩
    · rintro ⟨hl, hne⟩
      rcases List.mem_append.mp hl with hl | hl
      · obtain ⟨e, he, hle⟩ := mem_mapListenersAll.mp hl
        have hpat : l.pattern = e.1 := (hwf.1.1 e he).2.1 l hle
        have hek : e.1 ≠ ev := by
          rw [← hpat]
          exact hne
        refine List.mem_append_left _ (mem_mapListenersAll.mpr ⟨e, ?_, hle⟩)
        exact List.mem_filter.mpr ⟨he, by simpa using hek⟩
      · obtain ⟨e, he, hle⟩ := mem_mapListenersAll.mp hl
        have hpat : l.pattern = e.1 := (hwf.2.1.1 e he).2.1 l hle
        have hek : e.1 ≠ ev := by
          rw [← hpat]
          exact hne
        refine List.mem_append_right _ (mem_mapListenersAll.mpr ⟨e, ?_, hle⟩)
        exact List.mem_filter.mpr ⟨he, by simpa using hek⟩
  · intro l hl hne hwild hmatch
    rcases List.mem_append.mp hl with hl | hl
    · exfalso
      obtain ⟨e, he, hle⟩ := mem_mapListenersAll.mp hl
      have hpat : l.pattern = e.1 := (hwf.1.1 e he).2.1 l hle
      have hb : hasWildcard e.1 = false := (hwf.1.1 e he).2.2
      rw [← hpat, hwild] at hb
      exact Bool.noConfusion hb
    · obtain ⟨e, he, hle⟩ := mem_mapListenersAll.mp hl
      have hpat : l.pattern = e.1 := (hwf.2.1.1 e he).2.1 l hle
      have hek : e.1 ≠ ev := by
        rw [← hpat]
        exact hne
      have he' : e ∈ delA s.wildcardPatterns ev :=
        List.mem_filter.mpr ⟨he, by simpa using hek⟩
      rw [getMatching_mem]
      refine getMatchingRaw_mem.mpr (Or.inr ⟨e.1, e.2, he', ?_, hle⟩)
      rw [← hpat]
      exact hmatch

/-- Witness store for C5: a wildcard listener (id 0) under `"a*"` and an
exact listener (id 1) under `"a"`. -/
def c5Store : Store := (add (add store0 "a*" {} 0).2 "a" {} 1).2

/-- The wildcard listener of the C5 witness. -/
def c5L : Listener :=
  { id := 0, priority := 0, once := false, pattern := "a*", addedAt := 0,
    executionCount := 0, totalDuration := 0 }

/-- C5 witness: after `removeAll("a")`, the `"a*"` listener still shows up
in `getMatching("a")`. -/
theorem c5_witness :
    c5L ∈ getMatching (removeAll c5Store (some "a")).2 "a" :=
  (c5_removeAll_textual c5Store "a" (by decide)).2 c5L (by decide) (by decide)
    (by decide) (by decide)

end TsEventBus
